import Mathlib

/-!
# Operation-Kit: token-batch transformation and pagination engine

A shallow embedding of `Operation-Kit-Go/main.go`.

Conventions of the embedding.

* A Go `string` holding valid UTF-8 is the list of its code points (`List Char`).  The
  needles the program searches for (`"\n"`, `","`, `"'"`) are single ASCII bytes, so byte
  offsets and code-point offsets of their occurrences agree, and `item[1 : len(item)-1]` on an
  item that starts and ends with `'` removes exactly the first and the last code point.
* Go `int` values are `Int`; the page arithmetic never leaves the range of the buffer
  length, so no wrap-around is modelled.
* A run-time panic (slice bounds out of range) is the value `none`.
* `github.com/speps/go-hashids/v2` is an external library; it is a parameter (`HashID`)
  together with its documented contract (`HashID.Lawful`).
* A handler body runs with the mutex held from its first to its last statement, so it is one
  atomic step of the session (`step`); an expression a button closure evaluates before the
  method locks (`nextPageArg`) is a step of its own.
* `math.Ceil(float64(n) / float64(pageSize))` is computed over the rationals; with the
  program's page size the float computation agrees with it for every length below `2^53`.
-/

namespace OperationKit

/-! ## Go standard library primitives used by the program -/

/-- Go `unicode.IsSpace`: the Latin-1 white space characters and the `White_Space` table. -/
def isSpace (r : Char) : Bool :=
  let n := r.toNat
  (9 ≤ n && n ≤ 13) || n == 32 || n == 0x85 || n == 0xA0 || n == 0x1680 ||
    (0x2000 ≤ n && n ≤ 0x200A) || n == 0x2028 || n == 0x2029 || n == 0x202F ||
    n == 0x205F || n == 0x3000

/-- Go `strings.TrimSpace`: drop leading, then trailing, white space. -/
def TrimSpace (s : List Char) : List Char :=
  (s.dropWhile isSpace).rdropWhile isSpace

/-- The scanning loop of Go `strings.FieldsFunc`: `cur` is the field being read
(empty when no field is open, i.e. `start < 0`). -/
def fieldsLoop (f : Char → Bool) : List Char → List Char → List (List Char)
  | cur, [] => if cur = [] then [] else [cur]
  | cur, c :: cs =>
    if f c then
      if cur = [] then fieldsLoop f [] cs else cur :: fieldsLoop f [] cs
    else fieldsLoop f (cur ++ [c]) cs

/-- Go `strings.FieldsFunc`: the maximal non-empty runs of code points not satisfying `f`. -/
def FieldsFunc (s : List Char) (f : Char → Bool) : List (List Char) :=
  fieldsLoop f [] s

/-- The separator predicate `func(r rune) bool { return r == '\n' || r == ',' }`. -/
def isSep (r : Char) : Bool := r == '\n' || r == ','

/-- Go `strings.Count(s, sub)` for a one-character `sub`. -/
def Count (s : List Char) (c : Char) : Nat := s.count c

/-- Go `strings.Contains(s, sub)` for a one-character `sub`. -/
def Contains (s : List Char) (c : Char) : Bool := s.contains c

/-- Go `strings.HasPrefix(s, p)`. -/
def HasPrefix (s p : List Char) : Bool := p.isPrefixOf s

/-- Go `strings.HasSuffix(s, p)`. -/
def HasSuffix (s p : List Char) : Bool := p.isSuffixOf s

/-- Go slice expression `s[lo:hi]`: panics (`none`) unless `0 ≤ lo ≤ hi ≤ len(s)`.
(For a `[]rune` the upper limit is `cap(s) ≥ len(s)`; every call site passes `hi ≤ len(s)`.) -/
def slice (s : List Char) (lo hi : Int) : Option (List Char) :=
  if 0 ≤ lo ∧ lo ≤ hi ∧ hi ≤ s.length then some ((s.take hi.toNat).drop lo.toNat) else none

/-! ### `strconv` -/

/-- The decimal digit character of `d < 10`. -/
def digitChar (d : Nat) : Char :=
  match d with
  | 0 => '0' | 1 => '1' | 2 => '2' | 3 => '3' | 4 => '4'
  | 5 => '5' | 6 => '6' | 7 => '7' | 8 => '8' | _ => '9'

/-- The value of a decimal digit character, `none` for any other character. -/
def digitVal (c : Char) : Option Nat :=
  if '0' ≤ c ∧ c ≤ '9' then some (c.toNat - 48) else none

/-- Decimal digits of `n`, most significant first (`fuel` bounds the number of digits). -/
def uintDigits : Nat → Nat → List Char
  | 0, _ => []
  | fuel + 1, n => if n < 10 then [digitChar n] else uintDigits fuel (n / 10) ++ [digitChar (n % 10)]

/-- Go `strconv.FormatUint(n, 10)`. -/
def FormatUint (n : Nat) : List Char := uintDigits (n + 1) n

/-- Go `strconv.FormatInt(i, 10)`: canonical decimal, `-` before a negative number. -/
def FormatInt (i : Int) : List Char :=
  if i < 0 then '-' :: FormatUint i.natAbs else FormatUint i.natAbs

/-- The digit loop of Go `strconv.ParseUint(s, 10, 64)`, without the range cut-off
(the caller applies it). -/
def parseDigits : Nat → List Char → Option Nat
  | acc, [] => some acc
  | acc, c :: cs =>
    match digitVal c with
    | none => none
    | some d => parseDigits (acc * 10 + d) cs

/-- Go `strconv.ParseUint(s, 10, 64)` before the range check: `none` on a syntax error. -/
def ParseUint (s : List Char) : Option Nat :=
  if s = [] then none else parseDigits 0 s

/-- Go `strconv.ParseInt(s, 10, 64)`: an optional sign, decimal digits, and the result must
lie in `[-2^63, 2^63)`; `none` stands for a non-nil `err`. -/
def ParseInt (s : List Char) : Option Int :=
  match s with
  | [] => none
  | c :: cs =>
    let neg := c == '-'
    let body := if c == '+' || c == '-' then cs else c :: cs
    match ParseUint body with
    | none => none
    | some un =>
      if !neg && un ≥ 2 ^ 63 then none
      else if neg && un > 2 ^ 63 then none
      else some (if neg then -(un : Int) else (un : Int))

/-! ## The hashids library (external) -/

/-- The two entry points of `*hashids.HashID` that the program calls.  `none` stands for a
non-nil `error`. -/
structure HashID where
  EncodeInt64 : List Int → Option (List Char)
  DecodeInt64WithError : List Char → Option (List Int)

/-- A character of the default hashids alphabet `a-zA-Z0-9`. -/
def isAlnum (c : Char) : Bool :=
  let n := c.toNat
  (48 ≤ n && n ≤ 57) || (65 ≤ n && n ≤ 90) || (97 ≤ n && n ≤ 122)

/-- The documented contract of go-hashids (default alphabet `a-zA-Z0-9`):
negative numbers are rejected, a non-negative int64 is encoded to a non-empty alphanumeric
string, decoding inverts encoding, and decoding succeeds only on a string that re-encodes
to itself (the library's final sanity check). -/
structure HashID.Lawful (h : HashID) : Prop where
  encode_neg : ∀ n : Int, n < 0 → h.EncodeInt64 [n] = none
  encode_nonneg : ∀ n : Int, 0 ≤ n → n < 2 ^ 63 → ∃ e, h.EncodeInt64 [n] = some e
  encode_alnum : ∀ ns e, h.EncodeInt64 ns = some e → e ≠ [] ∧ ∀ c ∈ e, isAlnum c = true
  decode_encode : ∀ (n : Int) e, h.EncodeInt64 [n] = some e → h.DecodeInt64WithError e = some [n]
  decode_sound : ∀ s ns, h.DecodeInt64WithError s = some ns → ns ≠ [] → h.EncodeInt64 ns = some s

/-! ## The program -/

/-- Constant `batchSize`. -/
def batchSize : Nat := 1000

/-- Constant `pageSize`. -/
def pageSize : Nat := 5000

/-- The state of `converterApp`: the text and the labels shown by its widgets, the two blobs,
their page cursors and the hashids codec. -/
structure converterApp where
  inputBox : List Char
  outputBox : List Char
  pageInfoLabel : List Char
  inputPageLabel : List Char
  currentPage : Int
  totalPages : Int
  fullOutput : List Char
  fullInput : List Char
  inputCurrentPage : Int
  inputTotalPages : Int
  hashids : HashID

/-- Method `converterApp.encrypt`. -/
def converterApp.encrypt (app : converterApp) (text : List Char) : List Char :=
  match ParseInt text with
  | none => text
  | some num =>
    match app.hashids.EncodeInt64 [num] with
    | none => text
    | some encrypted => encrypted

/-- Method `converterApp.decrypt`. -/
def converterApp.decrypt (app : converterApp) (text : List Char) : List Char :=
  match app.hashids.DecodeInt64WithError text with
  | none => text
  | some decoded =>
    match decoded with
    | [] => text
    | d :: _ => FormatInt d

/-- The loop shared by `encryptBatch`, `decryptBatch` and `convertFormat`:
`for i, item := range items { if i > 0 { WriteString(delimiter) };
item = TrimSpace(item); WriteString(f(item)) }`, from index `i` with the builder's content. -/
def writeItems (delimiter : List Char) (f : List Char → List Char) :
    Nat → List (List Char) → List Char → List Char
  | _, [], builder => builder
  | i, item :: rest, builder =>
    let builder := if i > 0 then builder ++ delimiter else builder
    let item := TrimSpace item
    writeItems delimiter f (i + 1) rest (builder ++ f item)

/-- Method `converterApp.encryptBatch`. -/
def converterApp.encryptBatch (app : converterApp) (input : List Char) : List Char :=
  let items := FieldsFunc input isSep
  let delimiter := if Count input '\n' > Count input ',' then "\n".toList else ",".toList
  writeItems delimiter app.encrypt 0 items []

/-- Method `converterApp.decryptBatch`. -/
def converterApp.decryptBatch (app : converterApp) (input : List Char) : List Char :=
  let items := FieldsFunc input isSep
  let delimiter := if Count input '\n' > Count input ',' then "\n".toList else ",".toList
  writeItems delimiter app.decrypt 0 items []

/-- Function `convertFormat`. -/
def convertFormat (input : List Char) : List Char :=
  let items := FieldsFunc input isSep
  let usesNewlines := decide (Count input '\n' > Count input ',')
  let delimiter := if !usesNewlines then "\n".toList else ",".toList
  writeItems delimiter id 0 items []

/-- The body of the loop of `removeQuotes` for one item: the text written for it, `none` when
the slice expression `item[1 : len(item)-1]` panics. -/
def removeQuotesItem (item : List Char) : Option (List Char) :=
  let item := TrimSpace item
  if HasPrefix item "'".toList && HasSuffix item "'".toList then
    slice item 1 ((item.length : Int) - 1)
  else some item

/-- The loop of `removeQuotes`, from index `i` with the builder's content. -/
def removeQuotesLoop (delimiter : List Char) : Nat → List (List Char) → List Char →
    Option (List Char)
  | _, [], builder => some builder
  | i, item :: rest, builder =>
    let builder := if i > 0 then builder ++ delimiter else builder
    match removeQuotesItem item with
    | none => none
    | some written => removeQuotesLoop delimiter (i + 1) rest (builder ++ written)

/-- Function `removeQuotes`; `none` when it panics. -/
def removeQuotes (text : List Char) : Option (List Char) :=
  let items := FieldsFunc text isSep
  let delimiter := if Contains text '\n' then "\n".toList else ",".toList
  removeQuotesLoop delimiter 0 items []

/-- A field on which stripping one pair of quotes is stable: once trimmed it is not empty, and
if it begins and ends with a single quote, what lies between the two quotes is not empty, has
no white space at either end and does not itself begin and end with a single quote. -/
def stripStable (item : List Char) : Bool :=
  let x := TrimSpace item
  !x.isEmpty &&
    (if HasPrefix x "'".toList && HasSuffix x "'".toList then
      match slice x 1 ((x.length : Int) - 1) with
      | none => false
      | some inner =>
        !inner.isEmpty && TrimSpace inner == inner &&
          !(HasPrefix inner "'".toList && HasSuffix inner "'".toList)
    else true)

/-- The text written for one item by the add branch of `addRemoveQuotes`. -/
def addQuotesItem (item : List Char) : List Char :=
  let item := TrimSpace item
  if !(HasPrefix item "'".toList && HasSuffix item "'".toList) then
    "'".toList ++ item ++ "'".toList
  else item

/-- The inner loop `for j, item := range items[i:end]` of the add branch. -/
def addQuotesInner (delimiter : List Char) (i : Nat) :
    Nat → List (List Char) → List Char → List Char
  | _, [], builder => builder
  | j, item :: rest, builder =>
    let builder := if i + j > 0 then builder ++ delimiter else builder
    addQuotesInner delimiter i (j + 1) rest (builder ++ addQuotesItem item)

/-- The outer loop `for i := 0; i < len(items); i += batchSize` of the add branch.  `fuel`
bounds the number of iterations; `len(items)` iterations always suffice when
`batchSize ≥ 1`. -/
def addQuotesOuter (batchSize : Nat) (delimiter : List Char) (items : List (List Char)) :
    Nat → Nat → List Char → List Char
  | 0, _, builder => builder
  | fuel + 1, i, builder =>
    if i < items.length then
      let end_ := if i + batchSize > items.length then items.length else i + batchSize
      addQuotesOuter batchSize delimiter items fuel (i + batchSize)
        (addQuotesInner delimiter i 0 ((items.take end_).drop i) builder)
    else builder

/-- The add branch of `addRemoveQuotes` (lines 445-474) for a chunk size: the builder's
content after the loops. -/
def addQuotesWith (batchSize : Nat) (text : List Char) : List Char :=
  let items := FieldsFunc text isSep
  let delimiter := if Contains text '\n' then "\n".toList else ",".toList
  addQuotesOuter batchSize delimiter items items.length 0 []

/-- The add branch of `addRemoveQuotes` with the program's `batchSize`. -/
def addQuotes (text : List Char) : List Char := addQuotesWith batchSize text

/-! ### Pager -/

/-- The expression `int(math.Ceil(float64(n) / float64(pageSize)))`. -/
def pageCount (ps n : Nat) : Int := ⌈(n : ℚ) / (ps : ℚ)⌉

/-- The label `fmt.Sprintf("第 %d/%d 页", cur, tot)`. -/
def pageLabel (cur tot : Int) : List Char :=
  "第 ".toList ++ FormatInt cur ++ "/".toList ++ FormatInt tot ++ " 页".toList

/-- Method `converterApp.showCurrentPage` for a page size; `none` when the slice expression
panics. -/
def converterApp.showCurrentPageWith (ps : Nat) (app : converterApp) : Option converterApp :=
  if app.fullOutput = [] then
    some { app with outputBox := [], pageInfoLabel := [] }
  else
    let runes := app.fullOutput
    let start := (app.currentPage - 1) * ps
    let end_ := if app.currentPage * ps > runes.length then (runes.length : Int)
      else app.currentPage * ps
    match slice runes start end_ with
    | none => none
    | some pageContent =>
      some { app with
        outputBox := pageContent
        pageInfoLabel :=
          if app.totalPages > 1 then pageLabel app.currentPage app.totalPages else [] }

/-- Method `converterApp.showInputPage` for a page size; `none` when the slice expression
panics. -/
def converterApp.showInputPageWith (ps : Nat) (app : converterApp) : Option converterApp :=
  if app.fullInput = [] then
    some { app with inputBox := [], inputPageLabel := [] }
  else
    let runes := app.fullInput
    let start := (app.inputCurrentPage - 1) * ps
    let end_ := if app.inputCurrentPage * ps > runes.length then (runes.length : Int)
      else app.inputCurrentPage * ps
    match slice runes start end_ with
    | none => none
    | some pageContent =>
      some { app with
        inputBox := pageContent
        inputPageLabel :=
          if app.inputTotalPages > 1 then pageLabel app.inputCurrentPage app.inputTotalPages
          else [] }

/-- Method `converterApp.goToPage` for a page size. -/
def converterApp.goToPageWith (ps : Nat) (app : converterApp) (page : Int) :
    Option converterApp :=
  if page < 1 ∨ page > app.totalPages then some app
  else converterApp.showCurrentPageWith ps { app with currentPage := page }

/-- Method `converterApp.goToInputPage` for a page size. -/
def converterApp.goToInputPageWith (ps : Nat) (app : converterApp) (page : Int) :
    Option converterApp :=
  if page < 1 ∨ page > app.inputTotalPages then some app
  else converterApp.showInputPageWith ps { app with inputCurrentPage := page }

/-- The text `showCurrentPage` puts in the output box when the output blob is `b`, its page
count is the one computed from `b`, and the current page is `p`; `none` when it panics. -/
def renderOutputPage (ps : Nat) (app : converterApp) (b : List Char) (p : Int) :
    Option (List Char) :=
  (converterApp.showCurrentPageWith ps
    { app with fullOutput := b, currentPage := p, totalPages := pageCount ps b.length }).map
    (fun a => a.outputBox)

/-- The text `showInputPage` puts in the input box when the input blob is `b`, its page count
is the one computed from `b`, and the current page is `p`; `none` when it panics. -/
def renderInputPage (ps : Nat) (app : converterApp) (b : List Char) (p : Int) :
    Option (List Char) :=
  (converterApp.showInputPageWith ps
    { app with fullInput := b, inputCurrentPage := p,
               inputTotalPages := pageCount ps b.length }).map
    (fun a => a.inputBox)

/-- Method `converterApp.showCurrentPage`. -/
def converterApp.showCurrentPage (app : converterApp) : Option converterApp :=
  app.showCurrentPageWith pageSize

/-- Method `converterApp.showInputPage`. -/
def converterApp.showInputPage (app : converterApp) : Option converterApp :=
  app.showInputPageWith pageSize

/-- Method `converterApp.goToPage`. -/
def converterApp.goToPage (app : converterApp) (page : Int) : Option converterApp :=
  app.goToPageWith pageSize page

/-- Method `converterApp.goToInputPage`. -/
def converterApp.goToInputPage (app : converterApp) (page : Int) : Option converterApp :=
  app.goToInputPageWith pageSize page

/-- A small concrete codec that satisfies `HashID.Lawful`: `n ≥ 0` is encoded as the letter
`h` followed by its decimal digits.  It instantiates the contract in the examples. -/
def demoHashID : HashID where
  EncodeInt64 := fun ns =>
    match ns with
    | [n] => if 0 ≤ n then some ('h' :: FormatUint n.toNat) else none
    | _ => none
  DecodeInt64WithError := fun s =>
    match s with
    | 'h' :: ds =>
      match ParseUint ds with
      | some v => if FormatUint v = ds then some [(v : Int)] else none
      | none => none
    | _ => none

/-- The state built by `newConverterApp`, for a given hashids codec. -/
def newConverterApp (h : HashID) : converterApp where
  inputBox := []
  outputBox := []
  pageInfoLabel := []
  inputPageLabel := []
  currentPage := 1
  totalPages := 0
  fullOutput := []
  fullInput := []
  inputCurrentPage := 1
  inputTotalPages := 0
  hashids := h

/-- A session holding 12000 code points in each blob, on 3 pages each, showing page 1; it
instantiates the pager theorems in the examples. -/
def demoApp : converterApp :=
  { newConverterApp demoHashID with
    fullOutput := List.replicate 12000 'a'
    totalPages := 3
    fullInput := List.replicate 12000 'b'
    inputTotalPages := 3 }

/-! ### Session operations -/

/-- The two text boxes a handler is bound to: `app.inputBox` and `app.outputBox`. -/
inductive Box where
  | input
  | output
  deriving DecidableEq

/-- The input of a transform: `inputText := app.fullInput; if app.fullInput == ""
{ inputText = app.inputBox.Text }`. -/
def converterApp.inputText (app : converterApp) : List Char :=
  if app.fullInput = [] then app.inputBox else app.fullInput

/-- The handler of the button "加密" (lines 203-214); `none` when rendering panics. -/
def converterApp.encryptButton (app : converterApp) : Option converterApp :=
  let inputText := app.inputText
  let app := { app with fullOutput := app.encryptBatch inputText }
  let app := { app with currentPage := 1 }
  let app := { app with totalPages := pageCount pageSize app.fullOutput.length }
  app.showCurrentPage

/-- The handler of the button "解密" (lines 215-226). -/
def converterApp.decryptButton (app : converterApp) : Option converterApp :=
  let inputText := app.inputText
  let app := { app with fullOutput := app.decryptBatch inputText }
  let app := { app with currentPage := 1 }
  let app := { app with totalPages := pageCount pageSize app.fullOutput.length }
  app.showCurrentPage

/-- Method `converterApp.updateOutput` (the format flip). -/
def converterApp.updateOutput (app : converterApp) : Option converterApp :=
  let inputText := app.inputText
  let app := { app with fullOutput := convertFormat inputText }
  let app := { app with currentPage := 1 }
  let app := { app with totalPages := pageCount pageSize app.fullOutput.length }
  app.showCurrentPage

/-- Method `converterApp.clearText`. -/
def converterApp.clearText (app : converterApp) (box : Box) : converterApp :=
  if box = Box.output then
    { app with outputBox := [], fullOutput := [], currentPage := 1, totalPages := 0,
               pageInfoLabel := [] }
  else
    { app with inputBox := [], fullInput := [], inputCurrentPage := 1, inputTotalPages := 0,
               inputPageLabel := [] }

/-- Method `converterApp.pasteInput`; `clipText` is the content of the clipboard. -/
def converterApp.pasteInput (app : converterApp) (clipText : List Char) : Option converterApp :=
  if clipText = [] then some app
  else
    let app := { app with fullInput := clipText }
    let app := { app with inputCurrentPage := 1 }
    let app := { app with inputTotalPages := pageCount pageSize clipText.length }
    app.showInputPage

/-- The inner loop `for _, ch := range runes[i:end]` of `replaceCommas`. -/
def replaceCommasInner : List Char → List Char → List Char
  | [], builder => builder
  | ch :: rest, builder =>
    if ch = '，' then replaceCommasInner rest (builder ++ [','])
    else replaceCommasInner rest (builder ++ [ch])

/-- The outer loop `for i := 0; i < len(runes); i += batchSize` of `replaceCommas`.  `fuel`
bounds the number of iterations; `len(runes)` iterations always suffice when
`batchSize ≥ 1`. -/
def replaceCommasOuter (batchSize : Nat) (runes : List Char) :
    Nat → Nat → List Char → List Char
  | 0, _, builder => builder
  | fuel + 1, i, builder =>
    if i < runes.length then
      let end_ := if i + batchSize > runes.length then runes.length else i + batchSize
      replaceCommasOuter batchSize runes fuel (i + batchSize)
        (replaceCommasInner ((runes.take end_).drop i) builder)
    else builder

/-- The text built by `replaceCommas` (lines 395-416) for a chunk size. -/
def replaceCommasTextWith (batchSize : Nat) (inputText : List Char) : List Char :=
  replaceCommasOuter batchSize inputText inputText.length 0 []

/-- The text built by `replaceCommas` with the program's `batchSize`. -/
def replaceCommasText (inputText : List Char) : List Char :=
  replaceCommasTextWith batchSize inputText

/-- Method `converterApp.replaceCommas`. -/
def converterApp.replaceCommas (app : converterApp) : Option converterApp :=
  let inputText := app.inputText
  let app := { app with fullInput := replaceCommasText inputText }
  let app := { app with inputCurrentPage := 1 }
  let app := { app with inputTotalPages := pageCount pageSize app.fullInput.length }
  app.showInputPage

/-- Method `converterApp.addRemoveQuotes`; `none` when `removeQuotes` or rendering panics. -/
def converterApp.addRemoveQuotes (app : converterApp) (box : Box) (action : List Char) :
    Option converterApp :=
  let text := if box = Box.output then app.fullOutput else app.inputText
  if text = [] then some app
  else
    let built := if action = "add".toList then some (addQuotes text) else removeQuotes text
    match built with
    | none => none
    | some result =>
      if box = Box.output then
        let app := { app with fullOutput := result }
        let app := { app with currentPage := 1 }
        let app := { app with totalPages := pageCount pageSize result.length }
        app.showCurrentPage
      else
        let app := { app with fullInput := result }
        let app := { app with inputCurrentPage := 1 }
        let app := { app with inputTotalPages := pageCount pageSize result.length }
        app.showInputPage

/-- The argument `app.currentPage + 1` of the call `app.goToPage(app.currentPage + 1)` in the
handler of the button "下一页" (line 247).  The closure evaluates it before `goToPage` locks the
mutex, so it is a step of its own; the bodies that hold the mutex are atomic. -/
def converterApp.nextPageArg (app : converterApp) : Int := app.currentPage + 1

/-- The add-quotes pass of spec section 4.3 without chunking: one pass over all tokens. -/
def addQuotesUnchunked (text : List Char) : List Char :=
  let items := FieldsFunc text isSep
  let delimiter := if Contains text '\n' then "\n".toList else ",".toList
  addQuotesInner delimiter 0 0 items []

/-- The comma normalisation without chunking: one pass over all code points. -/
def replaceCommasUnchunked (inputText : List Char) : List Char :=
  replaceCommasInner inputText []

/-- The tokens of a text in the words of spec section 4.1: split at every separator, drop the
empty fields, trim each remaining field. -/
def specTokens (text : List Char) : List (List Char) :=
  ((text.splitOnP isSep).filter (fun field => !field.isEmpty)).map TrimSpace

/-- The events that change the session: the user's edits of the two boxes and the handlers of
the buttons.  The page buttons call `goToPage` / `goToInputPage` with a page number. -/
inductive Op where
  | typeInput (text : List Char)
  | typeOutput (text : List Char)
  | paste (clipText : List Char)
  | clear (box : Box)
  | encrypt
  | decrypt
  | formatFlip
  | quotes (box : Box) (action : List Char)
  | replaceCommas
  | goToPage (page : Int)
  | goToInputPage (page : Int)

/-- The events that run `removeQuotes`: `addRemoveQuotes` with an action other than `"add"`. -/
def Op.isStrip : Op → Bool
  | Op.quotes _ action => decide (action ≠ "add".toList)
  | _ => false

/-- One event applied to the session; `none` when the handler panics. -/
def step (app : converterApp) : Op → Option converterApp
  | Op.typeInput text => some { app with inputBox := text }
  | Op.typeOutput text => some { app with outputBox := text }
  | Op.paste clipText => app.pasteInput clipText
  | Op.clear box => some (app.clearText box)
  | Op.encrypt => app.encryptButton
  | Op.decrypt => app.decryptButton
  | Op.formatFlip => app.updateOutput
  | Op.quotes box action => app.addRemoveQuotes box action
  | Op.replaceCommas => app.replaceCommas
  | Op.goToPage page => app.goToPage page
  | Op.goToInputPage page => app.goToInputPage page

/-- A sequence of events applied in order. -/
def run : List Op → converterApp → Option converterApp
  | [], app => some app
  | op :: ops, app => (step app op).bind (run ops)

/-- The cursor invariant of one buffer: the page count is derived from the blob, the current
page is at least 1, at most the page count when there are pages, and 1 when there are none. -/
def cursorOK (blob : List Char) (current total : Int) : Prop :=
  total = pageCount pageSize blob.length ∧ 1 ≤ current ∧ (0 < total → current ≤ total) ∧
    (total = 0 → current = 1)

/-- The cursor invariant of the session: it holds of both buffers. -/
def converterApp.cursorsOK (app : converterApp) : Prop :=
  cursorOK app.fullOutput app.currentPage app.totalPages ∧
    cursorOK app.fullInput app.inputCurrentPage app.inputTotalPages

/-! ## Lemmas: decimal numerals -/

theorem digitVal_digitChar (d : Nat) (h : d < 10) : digitVal (digitChar d) = some d := by
  interval_cases d <;> rfl

theorem digitChar_isAlnum (d : Nat) : isAlnum (digitChar d) = true := by
  unfold digitChar
  split <;> decide

theorem digitChar_ne_sign (d : Nat) : digitChar d ≠ '-' ∧ digitChar d ≠ '+' := by
  unfold digitChar
  split <;> decide

theorem parseDigits_append (xs : List Char) (c : Char) (acc : Nat) :
    parseDigits acc (xs ++ [c]) =
      (parseDigits acc xs).bind (fun v => (digitVal c).map (fun d => v * 10 + d)) := by
  induction xs generalizing acc with
  | nil => simp only [List.nil_append, parseDigits]; cases digitVal c <;> rfl
  | cons x xs ih =>
    simp only [List.cons_append, parseDigits]
    cases digitVal x with
    | none => rfl
    | some d => exact ih _

theorem parseDigits_uintDigits (fuel n : Nat) (h : n < fuel) :
    parseDigits 0 (uintDigits fuel n) = some n := by
  induction fuel generalizing n with
  | zero => omega
  | succ fuel ih =>
    unfold uintDigits
    split
    · rename_i h10
      simp [parseDigits, digitVal_digitChar n h10]
    · rename_i h10
      rw [parseDigits_append, ih (n / 10) (by omega),
        digitVal_digitChar (n % 10) (Nat.mod_lt _ (by decide))]
      simp only [Option.some_bind, Option.map_some']
      congr 1
      omega

theorem uintDigits_ne_nil (fuel n : Nat) : uintDigits (fuel + 1) n ≠ [] := by
  unfold uintDigits
  split <;> simp

theorem uintDigits_alnum (fuel n : Nat) : ∀ c ∈ uintDigits fuel n, isAlnum c = true := by
  induction fuel generalizing n with
  | zero => intro c hc; simp [uintDigits] at hc
  | succ fuel ih =>
    intro c hc
    unfold uintDigits at hc
    split at hc
    · simp only [List.mem_singleton] at hc
      subst hc
      exact digitChar_isAlnum n
    · simp only [List.mem_append, List.mem_singleton] at hc
      rcases hc with hc | hc
      · exact ih _ c hc
      · subst hc
        exact digitChar_isAlnum _

theorem FormatUint_ne_nil (n : Nat) : FormatUint n ≠ [] := uintDigits_ne_nil n n

theorem FormatUint_alnum (n : Nat) : ∀ c ∈ FormatUint n, isAlnum c = true :=
  uintDigits_alnum _ _

theorem ParseUint_FormatUint (n : Nat) : ParseUint (FormatUint n) = some n := by
  unfold ParseUint
  rw [if_neg (FormatUint_ne_nil n)]
  exact parseDigits_uintDigits _ _ (Nat.lt_succ_self n)

/-- The first character of a canonical numeral is neither `+` nor `-`. -/
theorem FormatUint_head (n : Nat) :
    ∃ c cs, FormatUint n = c :: cs ∧ c ≠ '-' ∧ c ≠ '+' := by
  have hne := FormatUint_ne_nil n
  have hal := FormatUint_alnum n
  cases hf : FormatUint n with
  | nil => exact absurd hf hne
  | cons c cs =>
    refine ⟨c, cs, rfl, ?_, ?_⟩
    · intro hc
      have := hal c (by rw [hf]; simp)
      rw [hc] at this
      exact absurd this (by decide)
    · intro hc
      have := hal c (by rw [hf]; simp)
      rw [hc] at this
      exact absurd this (by decide)

theorem ParseInt_FormatInt (i : Int) (hlo : -(2 : Int) ^ 63 ≤ i) (hhi : i < (2 : Int) ^ 63) :
    ParseInt (FormatInt i) = some i := by
  unfold FormatInt
  split
  · rename_i hneg
    simp only [ParseInt, beq_self_eq_true, Bool.or_true, if_true, ParseUint_FormatUint,
      Bool.not_true, Bool.false_and, Bool.true_and]
    have h1 : ¬ (i.natAbs > 2 ^ 63) := by omega
    have hab : |i| = -i := abs_of_neg hneg
    simp [h1]
    omega
  · rename_i hneg
    obtain ⟨c, cs, hf, hc1, hc2⟩ := FormatUint_head i.natAbs
    have hp := ParseUint_FormatUint i.natAbs
    rw [hf] at hp ⊢
    have h1 : ¬ (i.natAbs ≥ 2 ^ 63) := by omega
    have hab : |i| = i := abs_of_nonneg (by omega)
    simp [ParseInt, hc1, hc2, hp, h1]
    omega

theorem ParseInt_range (s : List Char) (n : Int) (h : ParseInt s = some n) :
    -(2 : Int) ^ 63 ≤ n ∧ n < (2 : Int) ^ 63 := by
  cases s with
  | nil => simp [ParseInt] at h
  | cons c cs =>
    simp only [ParseInt] at h
    split at h
    · exact absurd h (by simp)
    · rename_i un hun
      split at h
      · exact absurd h (by simp)
      · split at h
        · exact absurd h (by simp)
        · rename_i h1 h2
          simp only [Option.some.injEq] at h
          by_cases hc : (c == '-') = true
          · simp only [hc, Bool.not_true, Bool.false_and, Bool.true_and, if_true,
              decide_eq_true_eq, gt_iff_lt, not_lt] at h h1 h2
            subst h
            have : (un : Int) ≤ 2 ^ 63 := by exact_mod_cast h2
            omega
          · simp only [hc, Bool.not_false, Bool.true_and, decide_eq_true_eq, ge_iff_le,
              not_le] at h h1
            simp only [Bool.false_eq_true, if_false] at h
            subst h
            have : (un : Int) < 2 ^ 63 := by exact_mod_cast h1
            omega

/-- A string that parses to a negative number starts with the minus sign. -/
theorem ParseInt_neg_head (s : List Char) (n : Int) (h : ParseInt s = some n) (hn : n < 0) :
    ∃ cs, s = '-' :: cs := by
  cases s with
  | nil => simp [ParseInt] at h
  | cons c cs =>
    simp only [ParseInt] at h
    split at h
    · exact absurd h (by simp)
    · rename_i un hun
      split at h
      · exact absurd h (by simp)
      · split at h
        · exact absurd h (by simp)
        · simp only [Option.some.injEq] at h
          by_cases hc : (c == '-') = true
          · exact ⟨cs, by rw [beq_iff_eq] at hc; rw [hc]⟩
          · simp only [hc, Bool.false_eq_true, if_false] at h
            omega

/-! ## Lemmas: the codec contract -/

theorem demoHashID_lawful : demoHashID.Lawful where
  encode_neg := by
    intro n hn
    simp [demoHashID, not_le.mpr hn]
  encode_nonneg := by
    intro n hn _
    exact ⟨'h' :: FormatUint n.toNat, by simp [demoHashID, hn]⟩
  encode_alnum := by
    intro ns e he
    simp only [demoHashID] at he
    split at he
    · split at he
      · simp only [Option.some.injEq] at he
        subst he
        refine ⟨by simp, ?_⟩
        intro c hc
        simp only [List.mem_cons] at hc
        rcases hc with hc | hc
        · subst hc; decide
        · exact FormatUint_alnum _ c hc
      · exact absurd he (by simp)
    · exact absurd he (by simp)
  decode_encode := by
    intro n e he
    simp only [demoHashID] at he
    split at he
    · rename_i hn
      simp only [Option.some.injEq] at he
      subst he
      simp only [demoHashID, ParseUint_FormatUint, if_true, Option.some.injEq,
        List.cons.injEq, and_true]
      exact Int.toNat_of_nonneg hn
    · exact absurd he (by simp)
  decode_sound := by
    intro s ns hd _
    simp only [demoHashID] at hd
    split at hd
    · rename_i ds
      split at hd
      · rename_i v hv
        split at hd
        · rename_i hf
          simp only [Option.some.injEq] at hd
          subst hd
          simp [demoHashID, hf]
        · exact absurd hd (by simp)
      · exact absurd hd (by simp)
    · exact absurd hd (by simp)

/-- A token holding a character outside `a-zA-Z0-9` is not a hashid: `decrypt` returns it
unchanged. -/
theorem decrypt_passthrough (app : converterApp) (hL : app.hashids.Lawful) (text : List Char)
    (c : Char) (hc : c ∈ text) (hal : isAlnum c = false) : app.decrypt text = text := by
  unfold converterApp.decrypt
  cases hd : app.hashids.DecodeInt64WithError text with
  | none => rfl
  | some decoded =>
    cases decoded with
    | nil => rfl
    | cons d ds =>
      have he := hL.decode_sound text (d :: ds) hd (by simp)
      have := (hL.encode_alnum _ _ he).2 c hc
      rw [hal] at this
      exact absurd this (by simp)

theorem decrypt_encoded (app : converterApp) (hL : app.hashids.Lawful) (n : Int)
    (e : List Char) (he : app.hashids.EncodeInt64 [n] = some e) :
    app.decrypt e = FormatInt n := by
  unfold converterApp.decrypt
  rw [hL.decode_encode n e he]

/-- The shape of `decrypt (encrypt s)` on a parseable token. -/
theorem decrypt_encrypt_of_parse (app : converterApp) (hL : app.hashids.Lawful)
    (s : List Char) (n : Int) (hp : ParseInt s = some n) :
    app.decrypt (app.encrypt s) = if 0 ≤ n then FormatInt n else s := by
  have hr := ParseInt_range s n hp
  by_cases hn : 0 ≤ n
  · obtain ⟨e, he⟩ := hL.encode_nonneg n hn hr.2
    simp only [converterApp.encrypt, hp, he, if_pos hn]
    exact decrypt_encoded app hL n e he
  · have hneg : n < 0 := not_le.mp hn
    obtain ⟨cs, hs⟩ := ParseInt_neg_head s n hp hneg
    simp only [converterApp.encrypt, hp, hL.encode_neg n hneg, if_neg hn]
    exact decrypt_passthrough app hL s '-' (by rw [hs]; simp) (by decide)

/-! ## Lemmas: fields and joins -/

theorem fieldsLoop_append_token (f : Char → Bool) (tok rest cur : List Char)
    (h : ∀ c ∈ tok, f c = false) :
    fieldsLoop f cur (tok ++ rest) = fieldsLoop f (cur ++ tok) rest := by
  induction tok generalizing cur with
  | nil => simp
  | cons c cs ih =>
    have hc : f c = false := h c (by simp)
    simp only [List.cons_append, fieldsLoop, hc, Bool.false_eq_true, if_false, List.append_eq]
    rw [ih _ (fun x hx => h x (by simp [hx]))]
    simp

theorem fieldsLoop_tokens (f : Char → Bool) (sepc : Char) (hs : f sepc = true)
    (ts : List (List Char)) (t : List Char)
    (ht : t ≠ [] ∧ ∀ c ∈ t, f c = false)
    (hts : ∀ u ∈ ts, u ≠ [] ∧ ∀ c ∈ u, f c = false) :
    fieldsLoop f [] (t ++ (ts.map (fun u => [sepc] ++ u)).flatten) = t :: ts := by
  induction ts generalizing t with
  | nil =>
    simp only [List.map_nil, List.flatten_nil]
    rw [fieldsLoop_append_token f t [] [] ht.2]
    simp [fieldsLoop, ht.1]
  | cons u us ih =>
    simp only [List.map_cons, List.flatten_cons]
    rw [fieldsLoop_append_token f t _ [] ht.2]
    have hu := ih u (hts u (by simp)) (fun v hv => hts v (by simp [hv]))
    simp only [List.nil_append, List.singleton_append, List.cons_append, fieldsLoop, hs, if_true,
      ht.1, if_false, List.append_eq] at hu ⊢
    rw [hu]

theorem intercalate_cons (d t : List Char) (ts : List (List Char)) :
    d.intercalate (t :: ts) = t ++ (ts.map (fun u => d ++ u)).flatten := by
  induction ts generalizing t with
  | nil => simp [List.intercalate]
  | cons u us ih =>
    have := ih u
    simp only [List.intercalate, List.intersperse, List.flatten_cons, List.map_cons] at this ⊢
    rw [this]
    simp

theorem FieldsFunc_intercalate (f : Char → Bool) (sepc : Char) (hs : f sepc = true)
    (toks : List (List Char)) (h : ∀ u ∈ toks, u ≠ [] ∧ ∀ c ∈ u, f c = false) :
    FieldsFunc ([sepc].intercalate toks) f = toks := by
  cases toks with
  | nil => simp [List.intercalate, FieldsFunc, fieldsLoop]
  | cons t ts =>
    rw [intercalate_cons]
    exact fieldsLoop_tokens f sepc hs ts t (h t (by simp)) (fun u hu => h u (by simp [hu]))

theorem fieldsLoop_fields (f : Char → Bool) (s cur : List Char) (hcur : ∀ c ∈ cur, f c = false) :
    ∀ u ∈ fieldsLoop f cur s, u ≠ [] ∧ ∀ c ∈ u, f c = false := by
  induction s generalizing cur with
  | nil =>
    intro u hu
    simp only [fieldsLoop] at hu
    split at hu
    · simp at hu
    · rename_i hne
      simp only [List.mem_singleton] at hu
      subst hu
      exact ⟨hne, hcur⟩
  | cons c cs ih =>
    intro u hu
    simp only [fieldsLoop] at hu
    split at hu
    · split at hu
      · exact ih [] (by simp) u hu
      · rename_i hne
        simp only [List.mem_cons] at hu
        rcases hu with hu | hu
        · subst hu; exact ⟨hne, hcur⟩
        · exact ih [] (by simp) u hu
    · rename_i hc
      refine ih (cur ++ [c]) ?_ u hu
      intro x hx
      simp only [List.mem_append, List.mem_singleton] at hx
      rcases hx with hx | hx
      · exact hcur x hx
      · subst hx; simpa using hc

/-- Every field returned by `FieldsFunc` is non-empty and free of separators. -/
theorem FieldsFunc_fields (f : Char → Bool) (s : List Char) :
    ∀ u ∈ FieldsFunc s f, u ≠ [] ∧ ∀ c ∈ u, f c = false :=
  fieldsLoop_fields f s [] (by simp)

theorem writeItems_succ (d : List Char) (f : List Char → List Char) (items : List (List Char))
    (i : Nat) (b : List Char) :
    writeItems d f (i + 1) items b = b ++ (items.map (fun it => d ++ f (TrimSpace it))).flatten := by
  induction items generalizing i b with
  | nil => simp [writeItems]
  | cons x xs ih =>
    simp only [writeItems, Nat.succ_pos, if_true, gt_iff_lt, Nat.zero_lt_succ]
    rw [ih]
    simp

theorem writeItems_zero (d : List Char) (f : List Char → List Char) (items : List (List Char)) :
    writeItems d f 0 items [] = d.intercalate (items.map (fun it => f (TrimSpace it))) := by
  cases items with
  | nil => simp [writeItems, List.intercalate]
  | cons x xs =>
    simp only [writeItems, gt_iff_lt, Nat.lt_irrefl, if_false, List.nil_append, List.map_cons]
    rw [writeItems_succ, intercalate_cons]
    simp [List.map_map, Function.comp_def]

/-! ## Lemmas: character classes and trimming -/

theorem isAlnum_not_sep (c : Char) (h : isAlnum c = true) : isSep c = false := by
  cases hs : isSep c with
  | false => rfl
  | true =>
    simp only [isSep, Bool.or_eq_true, beq_iff_eq] at hs
    rcases hs with hs | hs <;> subst hs <;> exact absurd h (by decide)

theorem isAlnum_not_space (c : Char) (h : isAlnum c = true) : isSpace c = false := by
  cases hs : isSpace c with
  | false => rfl
  | true =>
    simp only [isAlnum, isSpace, Bool.or_eq_true, Bool.and_eq_true, decide_eq_true_eq,
      beq_iff_eq] at h hs
    omega

theorem TrimSpace_eq_self (s : List Char)
    (hh : ∀ hl : 0 < s.length, isSpace (s.get ⟨0, hl⟩) = false)
    (ht : ∀ hl : s ≠ [], isSpace (s.getLast hl) = false) : TrimSpace s = s := by
  unfold TrimSpace
  rw [List.dropWhile_eq_self_iff.mpr (by simpa using hh),
    List.rdropWhile_eq_self_iff.mpr (by simpa using ht)]

theorem TrimSpace_of_no_space (s : List Char) (h : ∀ c ∈ s, isSpace c = false) :
    TrimSpace s = s :=
  TrimSpace_eq_self s (fun _ => h _ (List.get_mem _ _ _)) (fun hl => h _ (List.getLast_mem hl))

/-- A canonical numeral is a non-empty run of characters that are neither separators nor
white space. -/
theorem FormatInt_plain (n : Int) :
    FormatInt n ≠ [] ∧ ∀ c ∈ FormatInt n, isSep c = false ∧ isSpace c = false := by
  have hd : ∀ c ∈ FormatUint n.natAbs, isSep c = false ∧ isSpace c = false := fun c hc =>
    ⟨isAlnum_not_sep c (FormatUint_alnum _ c hc), isAlnum_not_space c (FormatUint_alnum _ c hc)⟩
  unfold FormatInt
  split
  · refine ⟨by simp, ?_⟩
    intro c hc
    simp only [List.mem_cons] at hc
    rcases hc with hc | hc
    · subst hc; exact ⟨by decide, by decide⟩
    · exact hd c hc
  · exact ⟨FormatUint_ne_nil _, hd⟩

/-- The output of `encrypt` on a canonical numeral is again a plain token. -/
theorem encrypt_FormatInt_plain (app : converterApp) (hL : app.hashids.Lawful) (n : Int) :
    app.encrypt (FormatInt n) ≠ [] ∧
      ∀ c ∈ app.encrypt (FormatInt n), isSep c = false ∧ isSpace c = false := by
  unfold converterApp.encrypt
  split
  · exact FormatInt_plain n
  · split
    · exact FormatInt_plain n
    · rename_i e he
      have := hL.encode_alnum _ _ he
      exact ⟨this.1, fun c hc => ⟨isAlnum_not_sep c (this.2 c hc), isAlnum_not_space c (this.2 c hc)⟩⟩

theorem decrypt_encrypt_FormatInt (app : converterApp) (hL : app.hashids.Lawful) (n : Int)
    (hlo : -(2 : Int) ^ 63 ≤ n) (hhi : n < (2 : Int) ^ 63) :
    app.decrypt (app.encrypt (FormatInt n)) = FormatInt n := by
  rw [decrypt_encrypt_of_parse app hL _ n (ParseInt_FormatInt n hlo hhi)]
  split
  · rfl
  · rfl

/-! ## Lemmas: delimiter inference on a joined text -/

theorem count_flatten_sep (sepc c : Char) (ts : List (List Char)) (h : ∀ u ∈ ts, c ∉ u) :
    ((ts.map (fun u => [sepc] ++ u)).flatten).count c = if c = sepc then ts.length else 0 := by
  induction ts with
  | nil => simp
  | cons u us ih =>
    have hu : u.count c = 0 := List.count_eq_zero.mpr (h u (by simp))
    simp only [List.map_cons, List.flatten_cons, List.count_append, List.length_cons,
      ih (fun v hv => h v (by simp [hv])), hu, List.count_singleton]
    by_cases hc : c = sepc
    · subst hc; simp; omega
    · have : ¬ sepc = c := fun e => hc e.symm
      simp [hc, this]

theorem count_intercalate (sepc c : Char) (toks : List (List Char)) (h : ∀ u ∈ toks, c ∉ u) :
    ([sepc].intercalate toks).count c = if c = sepc then toks.length - 1 else 0 := by
  cases toks with
  | nil => simp [List.intercalate]
  | cons t ts =>
    rw [intercalate_cons, List.count_append, count_flatten_sep sepc c ts
      (fun u hu => h u (by simp [hu])), List.count_eq_zero.mpr (h t (by simp))]
    simp

theorem intercalate_short (d e : List Char) (toks : List (List Char)) (h : toks.length ≤ 1) :
    d.intercalate toks = e.intercalate toks := by
  cases toks with
  | nil => simp [List.intercalate]
  | cons t ts =>
    cases ts with
    | nil => simp [List.intercalate]
    | cons u us => simp at h

theorem not_mem_of_sep_free (c : Char) (hc : isSep c = true) (toks : List (List Char))
    (h : ∀ u ∈ toks, ∀ x ∈ u, isSep x = false) : ∀ u ∈ toks, c ∉ u := by
  intro u hu hcu
  have := h u hu c hcu
  rw [hc] at this
  exact absurd this (by simp)

/-- The delimiter inferred by counting (`encryptBatch`, `decryptBatch`, `convertFormat`) from a
text that joins separator-free tokens with one delimiter is that delimiter, as far as a join
of as many tokens can tell. -/
theorem infer_count (sepc : Char) (hsep : sepc = ',' ∨ sepc = '\n')
    (toks toks2 : List (List Char)) (h : ∀ u ∈ toks, ∀ x ∈ u, isSep x = false)
    (hlen : toks2.length = toks.length) :
    (if Count ([sepc].intercalate toks) '\n' > Count ([sepc].intercalate toks) ','
      then "\n".toList else ",".toList).intercalate toks2 = [sepc].intercalate toks2 := by
  unfold Count
  rw [count_intercalate sepc '\n' toks (not_mem_of_sep_free _ (by decide) toks h),
    count_intercalate sepc ',' toks (not_mem_of_sep_free _ (by decide) toks h)]
  rcases hsep with hs | hs <;> subst hs
  · simp
  · by_cases hl : toks.length ≤ 1
    · exact intercalate_short _ _ _ (by omega)
    · have : toks.length - 1 > 0 := by omega
      simp [this]

/-- The delimiter inferred by `strings.Contains(text, "\n")` (`removeQuotes`, add branch). -/
theorem infer_contains (sepc : Char) (hsep : sepc = ',' ∨ sepc = '\n')
    (toks toks2 : List (List Char)) (h : ∀ u ∈ toks, ∀ x ∈ u, isSep x = false)
    (hlen : toks2.length = toks.length) :
    (if Contains ([sepc].intercalate toks) '\n' then "\n".toList else ",".toList).intercalate toks2
      = [sepc].intercalate toks2 := by
  have hcnt := count_intercalate sepc '\n' toks (not_mem_of_sep_free _ (by decide) toks h)
  have hiff : Contains ([sepc].intercalate toks) '\n' = true ↔
      0 < ([sepc].intercalate toks).count '\n' := by
    unfold Contains
    simp [List.count_pos_iff]
  rcases hsep with hs | hs <;> subst hs
  · have : ¬ (Contains ([','].intercalate toks) '\n' = true) := by
      rw [hiff, hcnt]; simp
    simp [this]
  · by_cases hl : toks.length ≤ 1
    · exact intercalate_short _ _ _ (by omega)
    · have : Contains (['\n'].intercalate toks) '\n' = true := by
        rw [hiff, hcnt]; simp; omega
      simp [this]

/-! ## Lemmas: batch encryption and decryption -/

theorem encryptBatch_joined (app : converterApp) (ns : List Int)
    (d : Char) (hd : d = ',' ∨ d = '\n') :
    app.encryptBatch ([d].intercalate (ns.map FormatInt)) =
      [d].intercalate (ns.map (fun n => app.encrypt (FormatInt n))) := by
  have hsep : isSep d = true := by rcases hd with h | h <;> subst h <;> decide
  have htok : ∀ u ∈ ns.map FormatInt, u ≠ [] ∧ ∀ c ∈ u, isSep c = false := by
    intro u hu
    obtain ⟨n, _, rfl⟩ := List.mem_map.mp hu
    exact ⟨(FormatInt_plain n).1, fun c hc => ((FormatInt_plain n).2 c hc).1⟩
  unfold converterApp.encryptBatch
  simp only [FieldsFunc_intercalate isSep d hsep _ htok, writeItems_zero, List.map_map]
  rw [infer_count d hd (ns.map FormatInt) _ (fun u hu => (htok u hu).2) (by simp)]
  congr 1
  apply List.map_congr_left
  intro n _
  simp only [Function.comp_apply]
  rw [TrimSpace_of_no_space _ (fun c hc => ((FormatInt_plain n).2 c hc).2)]

theorem decryptBatch_joined (app : converterApp) (hL : app.hashids.Lawful) (ns : List Int)
    (d : Char) (hd : d = ',' ∨ d = '\n') :
    app.decryptBatch ([d].intercalate (ns.map (fun n => app.encrypt (FormatInt n)))) =
      [d].intercalate (ns.map (fun n => app.decrypt (app.encrypt (FormatInt n)))) := by
  have hsep : isSep d = true := by rcases hd with h | h <;> subst h <;> decide
  have htok : ∀ u ∈ ns.map (fun n => app.encrypt (FormatInt n)),
      u ≠ [] ∧ ∀ c ∈ u, isSep c = false := by
    intro u hu
    obtain ⟨n, _, rfl⟩ := List.mem_map.mp hu
    exact ⟨(encrypt_FormatInt_plain app hL n).1,
      fun c hc => ((encrypt_FormatInt_plain app hL n).2 c hc).1⟩
  unfold converterApp.decryptBatch
  simp only [FieldsFunc_intercalate isSep d hsep _ htok, writeItems_zero, List.map_map]
  rw [infer_count d hd _ _ (fun u hu => (htok u hu).2) (by simp)]
  congr 1
  apply List.map_congr_left
  intro n _
  simp only [Function.comp_apply]
  rw [TrimSpace_of_no_space _ (fun c hc => ((encrypt_FormatInt_plain app hL n).2 c hc).2)]

/-! ## Lemmas: trimming and quote-wrapped tokens -/

theorem mem_of_mem_TrimSpace (s : List Char) (c : Char) (h : c ∈ TrimSpace s) : c ∈ s := by
  unfold TrimSpace at h
  have h1 := (List.rdropWhile_prefix isSpace (l := s.dropWhile isSpace)).subset h
  exact (List.dropWhile_suffix isSpace).subset h1

theorem dropWhile_rdropWhile_of_fixed (p : Char → Bool) (l : List Char)
    (h : l.dropWhile p = l) : (l.rdropWhile p).dropWhile p = l.rdropWhile p := by
  cases l with
  | nil => simp
  | cons a m =>
    have ha : ¬ (p a = true) := by
      have := List.dropWhile_eq_self_iff.mp h (by simp)
      simpa using this
    obtain ⟨t, ht⟩ := List.rdropWhile_prefix p (l := a :: m)
    cases hr : List.rdropWhile p (a :: m) with
    | nil => simp
    | cons b r =>
      rw [hr] at ht
      simp only [List.cons_append, List.cons.injEq] at ht
      rw [ht.1]
      exact List.dropWhile_cons_of_neg ha

theorem TrimSpace_idem (s : List Char) : TrimSpace (TrimSpace s) = TrimSpace s := by
  unfold TrimSpace
  rw [dropWhile_rdropWhile_of_fixed isSpace _ (List.dropWhile_idempotent ..),
    List.rdropWhile_idempotent]

theorem wrapped_iff (w : List Char) :
    (HasPrefix w "'".toList && HasSuffix w "'".toList) = true ↔
      (∃ rest, w = "'".toList ++ rest) ∧ (∃ init, w = init ++ "'".toList) := by
  simp only [HasPrefix, HasSuffix, Bool.and_eq_true, List.isPrefixOf_iff_prefix,
    List.isSuffixOf_iff_suffix]
  constructor
  · rintro ⟨⟨r, hr⟩, ⟨i, hi⟩⟩
    exact ⟨⟨r, hr.symm⟩, ⟨i, hi.symm⟩⟩
  · rintro ⟨⟨r, hr⟩, ⟨i, hi⟩⟩
    exact ⟨⟨r, hr.symm⟩, ⟨i, hi.symm⟩⟩

theorem wrapped_quote_append (x : List Char) :
    (HasPrefix ("'".toList ++ x ++ "'".toList) "'".toList &&
      HasSuffix ("'".toList ++ x ++ "'".toList) "'".toList) = true := by
  rw [wrapped_iff]
  exact ⟨⟨x ++ "'".toList, by simp⟩, ⟨"'".toList ++ x, by simp⟩⟩

/-- A token that begins and ends with a single quote is not empty and has no white space
at either end. -/
theorem wrapped_ne_nil_trim (w : List Char)
    (h : (HasPrefix w "'".toList && HasSuffix w "'".toList) = true) :
    w ≠ [] ∧ TrimSpace w = w := by
  rw [wrapped_iff] at h
  obtain ⟨⟨r, hr⟩, ⟨i, hi⟩⟩ := h
  refine ⟨by rw [hr]; simp, ?_⟩
  apply TrimSpace_eq_self
  · intro hl
    have : w.get ⟨0, hl⟩ = "'".toList.get ⟨0, by decide⟩ := by
      subst hr; rfl
    rw [this]; decide
  · intro hl
    have : w.getLast hl = "'".toList.getLast (by decide) := by
      subst hi; simp
    rw [this]; decide

theorem slice_quote_append (x : List Char) :
    slice ("'".toList ++ x ++ "'".toList) 1
      ((("'".toList ++ x ++ "'".toList).length : Int) - 1) = some x := by
  unfold slice
  have hlen : ("'".toList ++ x ++ "'".toList).length = x.length + 2 := by
    simp [List.length_append]
  rw [hlen]
  have hc : (0 : Int) ≤ 1 ∧ (1 : Int) ≤ ((x.length + 2 : Nat) : Int) - 1 ∧
      ((x.length + 2 : Nat) : Int) - 1 ≤ ((x.length + 2 : Nat) : Int) :=
    ⟨by decide, by omega, by omega⟩
  rw [if_pos hc]
  have h2 : (((x.length + 2 : Nat) : Int) - 1).toNat = x.length + 1 := by
    omega
  rw [h2]
  have h1 : (1 : Int).toNat = 1 := rfl
  rw [h1]
  have : "'".toList ++ x ++ "'".toList = "'".toList.head (by decide) :: (x ++ "'".toList) := by
    rfl
  rw [this, List.take_succ_cons, List.drop_succ_cons, List.drop_zero]
  simp

/-! ## Lemmas: the loops of the quote transforms -/

theorem addQuotesInner_index (d : List Char) (i j : Nat) (xs : List (List Char)) (b : List Char) :
    addQuotesInner d i j xs b = addQuotesInner d 0 (i + j) xs b := by
  induction xs generalizing j b with
  | nil => simp [addQuotesInner]
  | cons x xs ih =>
    simp only [addQuotesInner, Nat.zero_add]
    rw [ih (j + 1)]
    rfl

theorem addQuotesInner_append (d : List Char) (k : Nat) (xs ys : List (List Char))
    (b : List Char) :
    addQuotesInner d 0 k (xs ++ ys) b =
      addQuotesInner d 0 (k + xs.length) ys (addQuotesInner d 0 k xs b) := by
  induction xs generalizing k b with
  | nil => simp [addQuotesInner]
  | cons x xs ih =>
    simp only [List.cons_append, addQuotesInner, List.length_cons, List.append_eq]
    rw [ih]
    congr 1
    omega

/-- Chunk invariance of the add branch: with a chunk size of at least 1 and at least
`len(items) - i` iterations allowed, the chunked loops started at index `i` write what a single
pass over `items[i:]` writes. -/
theorem addQuotesOuter_eq (bs : Nat) (hbs : 1 ≤ bs) (d : List Char) (items : List (List Char))
    (fuel i : Nat) (b : List Char) (hf : items.length ≤ fuel + i) :
    addQuotesOuter bs d items fuel i b = addQuotesInner d 0 i (items.drop i) b := by
  induction fuel generalizing i b with
  | zero =>
    have : items.drop i = [] := List.drop_eq_nil_of_le (by omega)
    simp [addQuotesOuter, this, addQuotesInner]
  | succ fuel ih =>
    unfold addQuotesOuter
    split
    · rename_i hi
      simp only
      rw [ih (i + bs) _ (by omega), addQuotesInner_index d i 0]
      by_cases he : i + bs > items.length
      · simp only [he, if_true, List.take_length, Nat.add_zero]
        have : items.drop (i + bs) = [] := List.drop_eq_nil_of_le (by omega)
        simp [this, addQuotesInner]
      · simp only [he, if_false, Nat.add_zero]
        have hsplit : items.drop i = (items.take (i + bs)).drop i ++ items.drop (i + bs) := by
          conv_lhs => rw [← List.take_append_drop (i + bs) items]
          rw [List.drop_append_of_le_length (by simp; omega)]
        have hlen : ((items.take (i + bs)).drop i).length = bs := by
          simp; omega
        rw [hsplit, addQuotesInner_append, hlen]
    · rename_i hi
      have : items.drop i = [] := List.drop_eq_nil_of_le (by omega)
      simp [this, addQuotesInner]

theorem addQuotesInner_succ (d : List Char) (items : List (List Char)) (k : Nat)
    (b : List Char) :
    addQuotesInner d 0 (k + 1) items b =
      b ++ (items.map (fun it => d ++ addQuotesItem it)).flatten := by
  induction items generalizing k b with
  | nil => simp [addQuotesInner]
  | cons x xs ih =>
    simp only [addQuotesInner, Nat.zero_add, gt_iff_lt, Nat.zero_lt_succ, if_true]
    rw [ih]
    simp

theorem addQuotesInner_zero (d : List Char) (items : List (List Char)) :
    addQuotesInner d 0 0 items [] = d.intercalate (items.map addQuotesItem) := by
  cases items with
  | nil => simp [addQuotesInner, List.intercalate]
  | cons x xs =>
    simp only [addQuotesInner, Nat.add_zero, gt_iff_lt, Nat.lt_irrefl, if_false,
      List.nil_append, List.map_cons]
    rw [addQuotesInner_succ, intercalate_cons]
    simp [List.map_map, Function.comp_def]

/-- The add branch, whatever the chunk size (at least 1), joins the quoted items with the
inferred delimiter. -/
theorem addQuotesWith_eq (bs : Nat) (hbs : 1 ≤ bs) (text : List Char) :
    addQuotesWith bs text =
      (if Contains text '\n' then "\n".toList else ",".toList).intercalate
        ((FieldsFunc text isSep).map addQuotesItem) := by
  unfold addQuotesWith
  simp only
  rw [addQuotesOuter_eq bs hbs _ _ _ 0 [] (by omega), List.drop_zero, addQuotesInner_zero]

theorem removeQuotesLoop_succ (d : List Char) (g : List Char → List Char)
    (items : List (List Char)) (h : ∀ it ∈ items, removeQuotesItem it = some (g it))
    (i : Nat) (b : List Char) :
    removeQuotesLoop d (i + 1) items b =
      some (b ++ (items.map (fun it => d ++ g it)).flatten) := by
  induction items generalizing i b with
  | nil => simp [removeQuotesLoop]
  | cons x xs ih =>
    simp only [removeQuotesLoop, h x (by simp), gt_iff_lt, Nat.zero_lt_succ, if_true]
    rw [ih (fun it hit => h it (by simp [hit]))]
    simp

theorem removeQuotesLoop_zero (d : List Char) (g : List Char → List Char)
    (items : List (List Char)) (h : ∀ it ∈ items, removeQuotesItem it = some (g it)) :
    removeQuotesLoop d 0 items [] = some (d.intercalate (items.map g)) := by
  cases items with
  | nil => simp [removeQuotesLoop, List.intercalate]
  | cons x xs =>
    simp only [removeQuotesLoop, h x (by simp), gt_iff_lt, Nat.lt_irrefl, if_false,
      List.nil_append, List.map_cons]
    rw [removeQuotesLoop_succ d g xs (fun it hit => h it (by simp [hit])), intercalate_cons]
    simp [List.map_map, Function.comp_def]

/-! ## Lemmas: the quote transforms on one token -/

theorem delimiter_cases (text : List Char) :
    ∃ sepc, (sepc = ',' ∨ sepc = '\n') ∧
      (if Contains text '\n' then "\n".toList else ",".toList) = [sepc] := by
  split
  · exact ⟨'\n', Or.inr rfl, rfl⟩
  · exact ⟨',', Or.inl rfl, rfl⟩

theorem isSep_of_delimiter (sepc : Char) (h : sepc = ',' ∨ sepc = '\n') : isSep sepc = true := by
  rcases h with h | h <;> subst h <;> decide

theorem addQuotesItem_wrapped (item : List Char) :
    (HasPrefix (addQuotesItem item) "'".toList && HasSuffix (addQuotesItem item) "'".toList)
      = true := by
  unfold addQuotesItem
  simp only
  split
  · exact wrapped_quote_append _
  · rename_i h
    simpa using h

theorem addQuotesItem_fixed (w : List Char)
    (h : (HasPrefix w "'".toList && HasSuffix w "'".toList) = true) : addQuotesItem w = w := by
  unfold addQuotesItem
  simp only [(wrapped_ne_nil_trim w h).2, h, Bool.not_true, Bool.false_eq_true, if_false]

theorem addQuotesItem_sep_free (item : List Char) (h : ∀ c ∈ item, isSep c = false) :
    ∀ c ∈ addQuotesItem item, isSep c = false := by
  intro c hc
  unfold addQuotesItem at hc
  simp only at hc
  split at hc
  · simp only [List.mem_append] at hc
    rcases hc with (hc | hc) | hc
    · simp only [String.toList, List.mem_singleton] at hc
      subst hc; decide
    · exact h c (mem_of_mem_TrimSpace _ _ hc)
    · simp only [String.toList, List.mem_singleton] at hc
      subst hc; decide
  · exact h c (mem_of_mem_TrimSpace _ _ hc)

/-- What the add branch writes is a join of quote-wrapped, separator-free tokens. -/
theorem addQuotes_tokens (text : List Char) :
    ∀ u ∈ (FieldsFunc text isSep).map addQuotesItem,
      (u ≠ [] ∧ ∀ c ∈ u, isSep c = false) ∧ addQuotesItem u = u := by
  intro u hu
  obtain ⟨it, hit, rfl⟩ := List.mem_map.mp hu
  have hw := addQuotesItem_wrapped it
  exact ⟨⟨(wrapped_ne_nil_trim _ hw).1,
    addQuotesItem_sep_free it (FieldsFunc_fields isSep text it hit).2⟩, addQuotesItem_fixed _ hw⟩

theorem addQuotesWith_idem (bs : Nat) (hbs : 1 ≤ bs) (text : List Char) :
    addQuotesWith bs (addQuotesWith bs text) = addQuotesWith bs text := by
  obtain ⟨sepc, hsep, hd⟩ := delimiter_cases text
  have htok := addQuotes_tokens text
  rw [addQuotesWith_eq bs hbs text, hd, addQuotesWith_eq bs hbs,
    FieldsFunc_intercalate isSep sepc (isSep_of_delimiter sepc hsep) _ (fun u hu => (htok u hu).1),
    infer_contains sepc hsep _ _ (fun u hu => (htok u hu).1.2) (by simp)]
  congr 1
  conv_rhs => rw [← List.map_id ((FieldsFunc text isSep).map addQuotesItem)]
  apply List.map_congr_left
  intro u hu
  exact (htok u hu).2

theorem mem_of_mem_slice (s r : List Char) (lo hi : Int) (h : slice s lo hi = some r) :
    ∀ c ∈ r, c ∈ s := by
  unfold slice at h
  split at h
  · simp only [Option.some.injEq] at h
    subst h
    intro c hc
    exact List.mem_of_mem_take (List.mem_of_mem_drop hc)
  · exact absurd h (by simp)

/-- On a stable field `removeQuotes` writes a non-empty token made of characters of the field,
and that token is written unchanged when it is read again. -/
theorem stripStable_spec (item : List Char) (h : stripStable item = true) :
    ∃ w, removeQuotesItem item = some w ∧ w ≠ [] ∧ (∀ c ∈ w, c ∈ item) ∧
      removeQuotesItem w = some w := by
  unfold stripStable at h
  obtain ⟨hne, hrest⟩ := Bool.and_eq_true_iff.mp h
  have hne : TrimSpace item ≠ [] := by simpa using hne
  unfold removeQuotesItem
  simp only
  by_cases hw : (HasPrefix (TrimSpace item) "'".toList && HasSuffix (TrimSpace item) "'".toList)
      = true
  · rw [if_pos hw] at hrest ⊢
    cases hs : slice (TrimSpace item) 1 (((TrimSpace item).length : Int) - 1) with
    | none => rw [hs] at hrest; exact absurd hrest (by simp)
    | some inner =>
      rw [hs] at hrest
      obtain ⟨hrest, hnw⟩ := Bool.and_eq_true_iff.mp hrest
      obtain ⟨hin, htrim⟩ := Bool.and_eq_true_iff.mp hrest
      have hin : inner ≠ [] := by simpa using hin
      have htrim : TrimSpace inner = inner := by simpa using htrim
      have hnw : (HasPrefix inner "'".toList && HasSuffix inner "'".toList) = false := by
        cases hb : (HasPrefix inner "'".toList && HasSuffix inner "'".toList) with
        | false => rfl
        | true => rw [hb] at hnw; exact absurd hnw (by decide)
      refine ⟨inner, rfl, hin, ?_, ?_⟩
      · intro c hc
        exact mem_of_mem_TrimSpace _ _ (mem_of_mem_slice _ _ _ _ hs c hc)
      · rw [htrim, hnw]
        simp
  · rw [if_neg hw]
    refine ⟨TrimSpace item, rfl, hne, fun c hc => mem_of_mem_TrimSpace _ _ hc, ?_⟩
    rw [TrimSpace_idem, if_neg hw]

theorem removeQuotes_stable (t : List Char)
    (h : (FieldsFunc t isSep).all stripStable = true) :
    ∃ r, removeQuotes t = some r ∧ removeQuotes r = some r := by
  obtain ⟨sepc, hsep, hd⟩ := delimiter_cases t
  have hspec : ∀ it ∈ FieldsFunc t isSep, ∃ w, removeQuotesItem it = some w ∧ w ≠ [] ∧
      (∀ c ∈ w, c ∈ it) ∧ removeQuotesItem w = some w :=
    fun it hit => stripStable_spec it (List.all_eq_true.mp h it hit)
  have hg : ∀ it ∈ FieldsFunc t isSep,
      removeQuotesItem it = some ((removeQuotesItem it).getD []) := by
    intro it hit
    obtain ⟨w, hw, _⟩ := hspec it hit
    rw [hw]; rfl
  have htok : ∀ u ∈ (FieldsFunc t isSep).map (fun it => (removeQuotesItem it).getD []),
      (u ≠ [] ∧ ∀ c ∈ u, isSep c = false) ∧ removeQuotesItem u = some (id u) := by
    intro u hu
    obtain ⟨it, hit, rfl⟩ := List.mem_map.mp hu
    obtain ⟨w, hw, hne, hmem, hfix⟩ := hspec it hit
    rw [hw]
    exact ⟨⟨hne, fun c hc => (FieldsFunc_fields isSep t it hit).2 c (hmem c hc)⟩, hfix⟩
  refine ⟨[sepc].intercalate ((FieldsFunc t isSep).map (fun it => (removeQuotesItem it).getD [])),
    ?_, ?_⟩
  · unfold removeQuotes
    simp only
    rw [removeQuotesLoop_zero _ _ _ hg, hd]
  · unfold removeQuotes
    simp only
    rw [FieldsFunc_intercalate isSep sepc (isSep_of_delimiter sepc hsep) _
        (fun u hu => (htok u hu).1),
      removeQuotesLoop_zero _ id _ (fun u hu => (htok u hu).2), List.map_id,
      infer_contains sepc hsep _ _ (fun u hu => (htok u hu).1.2) rfl]

theorem removeQuotes_addQuotesWith (bs : Nat) (hbs : 1 ≤ bs) (s : List Char)
    (hsep : ∀ c ∈ s, isSep c = false) (htrim : TrimSpace s = s)
    (hnw : (HasPrefix s "'".toList && HasSuffix s "'".toList) = false) :
    removeQuotes (addQuotesWith bs s) = some s := by
  by_cases hs : s = []
  · subst hs
    rw [addQuotesWith_eq bs hbs]
    decide
  · have hf : FieldsFunc s isSep = [s] := by
      have := FieldsFunc_intercalate isSep ',' (by decide) [s] (by simpa using ⟨hs, hsep⟩)
      simpa [List.intercalate] using this
    have hitem : addQuotesItem s = "'".toList ++ s ++ "'".toList := by
      unfold addQuotesItem
      simp only [htrim, hnw, Bool.not_false, if_true]
    have hadd : addQuotesWith bs s = "'".toList ++ s ++ "'".toList := by
      rw [addQuotesWith_eq bs hbs, hf, List.map_singleton, hitem]
      simp [List.intercalate]
    have hw := wrapped_quote_append s
    have hf2 : FieldsFunc ("'".toList ++ s ++ "'".toList) isSep = ["'".toList ++ s ++ "'".toList] := by
      have := FieldsFunc_intercalate isSep ',' (by decide) ["'".toList ++ s ++ "'".toList] (by
        intro u hu
        simp only [List.mem_singleton] at hu
        subst hu
        refine ⟨(wrapped_ne_nil_trim _ hw).1, ?_⟩
        rw [← hitem]
        exact addQuotesItem_sep_free s hsep)
      simpa [List.intercalate] using this
    have hrem : removeQuotesItem ("'".toList ++ s ++ "'".toList) = some s := by
      unfold removeQuotesItem
      simp only [(wrapped_ne_nil_trim _ hw).2, hw, if_true]
      exact slice_quote_append s
    rw [hadd]
    unfold removeQuotes
    simp only
    rw [hf2, removeQuotesLoop_zero _ (fun _ => s) _ (by
      intro it hit
      simp only [List.mem_singleton] at hit
      subst hit
      exact hrem)]
    simp [List.intercalate]

/-! ## Lemmas: the pager -/

/-- The page count is the ceiling division of the length by the page size. -/
theorem pageCount_eq (ps n : Nat) (hps : 0 < ps) :
    pageCount ps n = (((n + ps - 1) / ps : Nat) : Int) := by
  unfold pageCount
  rw [Int.ceil_eq_iff]
  have hq : (0 : ℚ) < (ps : ℚ) := by exact_mod_cast hps
  have h1 : (n + ps - 1) / ps * ps ≤ n + ps - 1 := Nat.div_mul_le_self _ _
  have h2 : n + ps - 1 < (n + ps - 1) / ps * ps + ps := by
    have := Nat.lt_mul_div_succ (n + ps - 1) hps
    rwa [Nat.mul_add, Nat.mul_one, Nat.mul_comm] at this
  generalize (n + ps - 1) / ps = k at h1 h2
  have h1q : (k : ℚ) * ps + 1 ≤ n + ps := by
    have : k * ps + 1 ≤ n + ps := by omega
    exact_mod_cast this
  have h2q : (n : ℚ) ≤ k * ps := by
    have : n ≤ k * ps := by omega
    exact_mod_cast this
  constructor
  · rw [lt_div_iff₀ hq]
    push_cast
    linarith
  · rw [div_le_iff₀ hq]
    push_cast
    linarith

theorem pageCount_bounds (ps n : Nat) (hps : 0 < ps) :
    ∃ T : Nat, pageCount ps n = (T : Int) ∧ T = (n + ps - 1) / ps ∧ n ≤ T * ps ∧
      T * ps < n + ps := by
  refine ⟨(n + ps - 1) / ps, pageCount_eq ps n hps, rfl, ?_, ?_⟩
  · have h2 : n + ps - 1 < (n + ps - 1) / ps * ps + ps := by
      have := Nat.lt_mul_div_succ (n + ps - 1) hps
      rwa [Nat.mul_add, Nat.mul_one, Nat.mul_comm] at this
    omega
  · have h1 : (n + ps - 1) / ps * ps ≤ n + ps - 1 := Nat.div_mul_le_self _ _
    omega

/-- The slice taken by `showCurrentPage` / `showInputPage` for page `i + 1`, when that page
starts inside the blob. -/
theorem slice_page (ps : Nat) (b : List Char) (i : Nat) (hi : i * ps ≤ b.length) :
    slice b (((i : Int) + 1 - 1) * ps)
      (if ((i : Int) + 1) * ps > b.length then (b.length : Int) else ((i : Int) + 1) * ps) =
      some ((b.drop (i * ps)).take ps) := by
  have hstart : ((i : Int) + 1 - 1) * ps = ((i * ps : Nat) : Int) := by push_cast; ring
  have hend : ((i : Int) + 1) * ps = (((i + 1) * ps : Nat) : Int) := by push_cast; ring
  rw [hstart, hend]
  unfold slice
  by_cases hgt : (((i + 1) * ps : Nat) : Int) > b.length
  · rw [if_pos hgt]
    have hc : (0 : Int) ≤ ((i * ps : Nat) : Int) ∧ ((i * ps : Nat) : Int) ≤ (b.length : Int) ∧
        (b.length : Int) ≤ (b.length : Int) := ⟨by omega, by omega, by omega⟩
    rw [if_pos hc]
    simp only [Int.toNat_ofNat, List.take_length]
    have hlen : (b.drop (i * ps)).length ≤ ps := by
      have : (i + 1) * ps = i * ps + ps := by ring
      simp only [List.length_drop]
      omega
    rw [List.take_of_length_le hlen]
  · rw [if_neg hgt]
    have hle : (i + 1) * ps ≤ b.length := by omega
    have hmono : i * ps ≤ (i + 1) * ps := Nat.mul_le_mul_right _ (by omega)
    have hc : (0 : Int) ≤ ((i * ps : Nat) : Int) ∧
        ((i * ps : Nat) : Int) ≤ (((i + 1) * ps : Nat) : Int) ∧
        (((i + 1) * ps : Nat) : Int) ≤ (b.length : Int) := ⟨by omega, by omega, by omega⟩
    rw [if_pos hc]
    simp only [Int.toNat_ofNat]
    have : (i + 1) * ps = i * ps + ps := by ring
    rw [this, List.drop_take]
    simp

theorem chunks_flatten (ps : Nat) (b : List Char) (k : Nat) :
    ((List.range k).map (fun i => (b.drop (i * ps)).take ps)).flatten = b.take (k * ps) := by
  induction k with
  | zero => simp
  | succ k ih =>
    rw [List.range_succ, List.map_append, List.flatten_append, ih]
    have : (k + 1) * ps = k * ps + ps := by ring
    simp only [List.map_singleton, List.flatten_cons, List.flatten_nil, List.append_nil, this]
    rw [List.take_add]

theorem showCurrentPageWith_page (ps : Nat) (app : converterApp) (i : Nat)
    (hne : app.fullOutput ≠ []) (hcur : app.currentPage = (i : Int) + 1)
    (hi : i * ps ≤ app.fullOutput.length) :
    app.showCurrentPageWith ps = some { app with
      outputBox := (app.fullOutput.drop (i * ps)).take ps
      pageInfoLabel :=
        if app.totalPages > 1 then pageLabel app.currentPage app.totalPages else [] } := by
  unfold converterApp.showCurrentPageWith
  rw [if_neg hne]
  simp only [hcur]
  rw [slice_page ps app.fullOutput i hi]

theorem showInputPageWith_page (ps : Nat) (app : converterApp) (i : Nat)
    (hne : app.fullInput ≠ []) (hcur : app.inputCurrentPage = (i : Int) + 1)
    (hi : i * ps ≤ app.fullInput.length) :
    app.showInputPageWith ps = some { app with
      inputBox := (app.fullInput.drop (i * ps)).take ps
      inputPageLabel :=
        if app.inputTotalPages > 1 then pageLabel app.inputCurrentPage app.inputTotalPages
        else [] } := by
  unfold converterApp.showInputPageWith
  rw [if_neg hne]
  simp only [hcur]
  rw [slice_page ps app.fullInput i hi]

/-- A page number within the page count starts inside a non-empty blob. -/
theorem page_start_in_range (ps : Nat) (hps : 0 < ps) (b : List Char) (i : Nat)
    (hi : ((i : Int) + 1) ≤ pageCount ps b.length) : b ≠ [] ∧ i * ps < b.length := by
  obtain ⟨T, hT, _, _, hlt⟩ := pageCount_bounds ps b.length hps
  rw [hT] at hi
  have hiT : i + 1 ≤ T := by exact_mod_cast hi
  have hmul : (i + 1) * ps ≤ T * ps := Nat.mul_le_mul_right _ hiT
  have : (i + 1) * ps = i * ps + ps := by ring
  have hlen : i * ps < b.length := by omega
  refine ⟨?_, hlen⟩
  intro hb
  rw [hb] at hlen
  simp at hlen

theorem renderOutputPage_eq (ps : Nat) (hps : 0 < ps) (app : converterApp) (b : List Char)
    (i : Nat) (hi : ((i : Int) + 1) ≤ pageCount ps b.length) :
    renderOutputPage ps app b ((i : Int) + 1) = some ((b.drop (i * ps)).take ps) := by
  obtain ⟨hne, hlt⟩ := page_start_in_range ps hps b i hi
  unfold renderOutputPage
  rw [showCurrentPageWith_page ps _ i hne rfl (Nat.le_of_lt hlt)]
  rfl

theorem renderInputPage_eq (ps : Nat) (hps : 0 < ps) (app : converterApp) (b : List Char)
    (i : Nat) (hi : ((i : Int) + 1) ≤ pageCount ps b.length) :
    renderInputPage ps app b ((i : Int) + 1) = some ((b.drop (i * ps)).take ps) := by
  obtain ⟨hne, hlt⟩ := page_start_in_range ps hps b i hi
  unfold renderInputPage
  rw [showInputPageWith_page ps _ i hne rfl (Nat.le_of_lt hlt)]
  rfl

theorem goToPageWith_in_range (ps : Nat) (hps : 0 < ps) (app : converterApp) (p : Int)
    (hcons : app.totalPages = pageCount ps app.fullOutput.length)
    (h1 : 1 ≤ p) (h2 : p ≤ app.totalPages) :
    app.goToPageWith ps p = some { app with
      currentPage := p
      outputBox := (app.fullOutput.drop ((p.toNat - 1) * ps)).take ps
      pageInfoLabel := if app.totalPages > 1 then pageLabel p app.totalPages else [] } := by
  have hp : p = ((p.toNat - 1 : Nat) : Int) + 1 := by omega
  obtain ⟨hne, hlt⟩ := page_start_in_range ps hps app.fullOutput (p.toNat - 1)
    (by rw [← hp, ← hcons]; exact h2)
  unfold converterApp.goToPageWith
  rw [if_neg (by omega)]
  exact showCurrentPageWith_page ps { app with currentPage := p } (p.toNat - 1) hne hp
    (Nat.le_of_lt hlt)

theorem goToInputPageWith_in_range (ps : Nat) (hps : 0 < ps) (app : converterApp) (p : Int)
    (hcons : app.inputTotalPages = pageCount ps app.fullInput.length)
    (h1 : 1 ≤ p) (h2 : p ≤ app.inputTotalPages) :
    app.goToInputPageWith ps p = some { app with
      inputCurrentPage := p
      inputBox := (app.fullInput.drop ((p.toNat - 1) * ps)).take ps
      inputPageLabel :=
        if app.inputTotalPages > 1 then pageLabel p app.inputTotalPages else [] } := by
  have hp : p = ((p.toNat - 1 : Nat) : Int) + 1 := by omega
  obtain ⟨hne, hlt⟩ := page_start_in_range ps hps app.fullInput (p.toNat - 1)
    (by rw [← hp, ← hcons]; exact h2)
  unfold converterApp.goToInputPageWith
  rw [if_neg (by omega)]
  exact showInputPageWith_page ps { app with inputCurrentPage := p } (p.toNat - 1) hne hp
    (Nat.le_of_lt hlt)

theorem demoApp_output_pages :
    demoApp.totalPages = pageCount pageSize demoApp.fullOutput.length := by
  show (3 : Int) = pageCount pageSize (List.replicate 12000 'a').length
  rw [List.length_replicate, pageCount_eq _ _ (by decide)]
  decide

theorem demoApp_input_pages :
    demoApp.inputTotalPages = pageCount pageSize demoApp.fullInput.length := by
  show (3 : Int) = pageCount pageSize (List.replicate 12000 'b').length
  rw [List.length_replicate, pageCount_eq _ _ (by decide)]
  decide

/-! ## Claims C1 to C10 -/

/-- C1: for every signed 64-bit integer `n` (negative numbers and 0 included),
`decrypt (encrypt (str n)) = str n`, where `str n` is the canonical decimal numeral of `n`;
the hashids codec is any one that meets the library contract. -/
theorem decrypt_encrypt_int64 (app : converterApp) (hL : app.hashids.Lawful) (n : Int)
    (hlo : -(2 : Int) ^ 63 ≤ n) (hhi : n < (2 : Int) ^ 63) :
    app.decrypt (app.encrypt (FormatInt n)) = FormatInt n :=
  decrypt_encrypt_FormatInt app hL n hlo hhi

/-- C1 at the least int64, with the demonstration codec. -/
theorem decrypt_encrypt_int64_witness :
    (newConverterApp demoHashID).hashids.Lawful ∧
      (newConverterApp demoHashID).decrypt
        ((newConverterApp demoHashID).encrypt (FormatInt (-9223372036854775808))) =
        FormatInt (-9223372036854775808) :=
  ⟨demoHashID_lawful,
    decrypt_encrypt_int64 (newConverterApp demoHashID) demoHashID_lawful (-9223372036854775808)
      (by norm_num) (by norm_num)⟩

/-- C2 as stated fails: `"-007"` parses as the int64 `-7`, whose canonical numeral is `"-7"`,
but with every codec that meets the library contract `decrypt (encrypt "-007")` is `"-007"`
(hashids rejects negative numbers, `encrypt` returns the token itself, and `decrypt` does not
recognise it). -/
theorem decrypt_encrypt_noncanonical_negative :
    ParseInt "-007".toList = some (-7) ∧ FormatInt (-7) = "-7".toList ∧
      (∀ app : converterApp, app.hashids.Lawful →
        app.decrypt (app.encrypt "-007".toList) = "-007".toList) ∧
      (newConverterApp demoHashID).decrypt ((newConverterApp demoHashID).encrypt "-007".toList) ≠
        FormatInt (-7) := by
  refine ⟨by decide, by decide, ?_, by decide⟩
  intro app hL
  rw [decrypt_encrypt_of_parse app hL "-007".toList (-7) (by decide)]
  rfl

/-- C2 (amended): for every string `s` that parses as a base-10 int64 `n`, non-canonical forms
included, `decrypt (encrypt s)` is the canonical numeral of `n` when `n ≥ 0`, and is `s` itself
when `n < 0`. -/
theorem decrypt_encrypt_parseable (app : converterApp) (hL : app.hashids.Lawful)
    (s : List Char) (n : Int) (hp : ParseInt s = some n) :
    app.decrypt (app.encrypt s) = if 0 ≤ n then FormatInt n else s :=
  decrypt_encrypt_of_parse app hL s n hp

/-- C2 (amended) at `"+007"`, which parses as `7`. -/
theorem decrypt_encrypt_parseable_witness :
    ParseInt "+007".toList = some 7 ∧
      (newConverterApp demoHashID).decrypt ((newConverterApp demoHashID).encrypt "+007".toList) =
        "7".toList :=
  ⟨by decide,
    (decrypt_encrypt_parseable (newConverterApp demoHashID) demoHashID_lawful "+007".toList 7
      (by decide)).trans (by decide)⟩

/-- C3: for every text made of canonical decimal int64 tokens joined by one delimiter kind
(all commas or all newlines), `decryptBatch (encryptBatch t) = t`: order, token text and
delimiter are restored. -/
theorem decryptBatch_encryptBatch (app : converterApp) (hL : app.hashids.Lawful)
    (ns : List Int) (d : Char) (hd : d = ',' ∨ d = '\n')
    (hr : ∀ n ∈ ns, -(2 : Int) ^ 63 ≤ n ∧ n < (2 : Int) ^ 63) :
    app.decryptBatch (app.encryptBatch ([d].intercalate (ns.map FormatInt))) =
      [d].intercalate (ns.map FormatInt) := by
  rw [encryptBatch_joined app ns d hd, decryptBatch_joined app hL ns d hd]
  congr 1
  apply List.map_congr_left
  intro n hn
  exact decrypt_encrypt_FormatInt app hL n (hr n hn).1 (hr n hn).2

/-- C3 at the text `"100,200,300"`. -/
theorem decryptBatch_encryptBatch_witness :
    (newConverterApp demoHashID).decryptBatch
        ((newConverterApp demoHashID).encryptBatch "100,200,300".toList) =
      "100,200,300".toList := by
  have h := decryptBatch_encryptBatch (newConverterApp demoHashID) demoHashID_lawful
    [100, 200, 300] ',' (Or.inl rfl) (by
      intro n hn
      simp only [List.mem_cons, List.mem_singleton, List.not_mem_nil, or_false] at hn
      rcases hn with h | h | h <;> subst h <;> norm_num)
  have e : [','].intercalate ([100, 200, 300].map FormatInt) = "100,200,300".toList := by decide
  rw [e] at h
  exact h

/-- C4: `removeQuotes` is not total.  On a text whose token is one lone single quote (`"'"`,
or the middle token of `"a,',b"`) the token both begins and ends with `'`, the slice
expression `item[1 : len(item)-1]` is `item[1:0]`, and the function panics. -/
theorem removeQuotes_lone_quote_panics :
    removeQuotes "'".toList = none ∧ removeQuotes "a,',b".toList = none ∧
      slice "'".toList 1 (("'".toList.length : Int) - 1) = none := by
  decide

/-- C5 as stated fails: `removeQuotes` strips exactly one pair of quotes, so on `''a''` it
returns `'a'`, and applied to that it returns `a`. -/
theorem removeQuotes_not_idempotent :
    removeQuotes "''a''".toList = some "'a'".toList ∧
      removeQuotes "'a'".toList = some "a".toList ∧
      (removeQuotes "''a''".toList).bind removeQuotes ≠ removeQuotes "''a''".toList := by
  decide

/-- C5 (amended): strip-quotes is idempotent on every text whose fields are stable under
stripping one pair of quotes (`stripStable`: the trimmed field is not empty, and if it begins
and ends with a single quote, the text between the quotes is not empty, has no white space at
either end and is not itself quote-wrapped): `removeQuotes` returns some `r`, and
`removeQuotes r = r`. -/
theorem removeQuotes_idempotent_of_stable (t : List Char)
    (h : (FieldsFunc t isSep).all stripStable = true) :
    ∃ r, removeQuotes t = some r ∧ removeQuotes r = some r :=
  removeQuotes_stable t h

/-- C5 (amended) at the text `'a', b , 'c'`. -/
theorem removeQuotes_idempotent_of_stable_witness :
    (FieldsFunc "'a', b , 'c'".toList isSep).all stripStable = true ∧
      ∃ r, removeQuotes "'a', b , 'c'".toList = some r ∧ removeQuotes r = some r :=
  ⟨by decide, removeQuotes_idempotent_of_stable "'a', b , 'c'".toList (by decide)⟩

/-- C6: add-quotes is idempotent: for every text `t`, the add branch of `addRemoveQuotes`
applied to its own output returns that output, `addQuotes (addQuotes t) = addQuotes t`. -/
theorem addQuotes_idempotent (t : List Char) : addQuotes (addQuotes t) = addQuotes t :=
  addQuotesWith_idem batchSize (by decide) t

/-- C7: for every string `s` without comma or newline, without leading or trailing white
space, and that does not both begin and end with a single quote, stripping quotes after
adding quotes returns `s`. -/
theorem removeQuotes_addQuotes (s : List Char) (hsep : ∀ c ∈ s, isSep c = false)
    (htrim : TrimSpace s = s)
    (hnw : (HasPrefix s "'".toList && HasSuffix s "'".toList) = false) :
    removeQuotes (addQuotes s) = some s :=
  removeQuotes_addQuotesWith batchSize (by decide) s hsep htrim hnw

/-- C7 at the string `it's a b`. -/
theorem removeQuotes_addQuotes_witness :
    removeQuotes (addQuotes "it's a b".toList) = some "it's a b".toList :=
  removeQuotes_addQuotes "it's a b".toList (by decide) (by decide) (by decide)

/-- C8: pagination coverage.  For every blob `b` and page size `ps > 0`, with
`totalPages = ceil(codePoints(b) / ps)`, the page that `showCurrentPage` (and `showInputPage`)
renders for `p = i + 1`, `i < totalPages`, is the run of code points of `b` from offset
`i * ps` up to `min ((i + 1) * ps) (len b)`, and the concatenation of these pages in order is
`b`: consecutive pages abut, nothing is repeated and nothing is left out. -/
theorem pagination_coverage (ps : Nat) (hps : 0 < ps) (app : converterApp) (b : List Char) :
    (List.range (pageCount ps b.length).toNat).map
        (fun (i : Nat) => renderOutputPage ps app b ((i : Int) + 1)) =
      (List.range (pageCount ps b.length).toNat).map
        (fun i => some ((b.drop (i * ps)).take ps)) ∧
    (List.range (pageCount ps b.length).toNat).map
        (fun (i : Nat) => renderInputPage ps app b ((i : Int) + 1)) =
      (List.range (pageCount ps b.length).toNat).map
        (fun i => some ((b.drop (i * ps)).take ps)) ∧
    ((List.range (pageCount ps b.length).toNat).map
        (fun i => (b.drop (i * ps)).take ps)).flatten = b := by
  obtain ⟨T, hT, _, hle, _⟩ := pageCount_bounds ps b.length hps
  rw [hT, Int.toNat_ofNat]
  refine ⟨?_, ?_, ?_⟩
  · apply List.map_congr_left
    intro i hi
    have hi : i < T := List.mem_range.mp hi
    exact renderOutputPage_eq ps hps app b i (by rw [hT]; exact_mod_cast hi)
  · apply List.map_congr_left
    intro i hi
    have hi : i < T := List.mem_range.mp hi
    exact renderInputPage_eq ps hps app b i (by rw [hT]; exact_mod_cast hi)
  · rw [chunks_flatten, List.take_of_length_le hle]

/-- C8 at the blob `hello` with pages of 2 code points: the pages `he`, `ll`, `o`. -/
theorem pagination_coverage_witness :
    (0 < 2) ∧
      ((List.range (pageCount 2 "hello".toList.length).toNat).map
        (fun i => ("hello".toList.drop (i * 2)).take 2)).flatten = "hello".toList :=
  ⟨by decide, (pagination_coverage 2 (by decide) demoApp "hello".toList).2.2⟩

/-- C9: for every blob `b` of `n` code points and page size `ps > 0`, the computed page count
`T` is `ceil(n / ps)`: the least number with `n ≤ T * ps`, which is `0` when `n = 0`; every
page before the last holds exactly `ps` code points, and the last page holds the final
`n - (T - 1) * ps` code points, between 1 and `ps` of them. -/
theorem page_count_and_sizes (ps : Nat) (hps : 0 < ps) (app : converterApp) (b : List Char) :
    ∃ T : Nat, pageCount ps b.length = (T : Int) ∧ T = (b.length + ps - 1) / ps ∧
      (b.length = 0 → T = 0) ∧ b.length ≤ T * ps ∧ T * ps < b.length + ps ∧
      (∀ p : Nat, 1 ≤ p → p < T → ∃ page, renderOutputPage ps app b p = some page ∧
        renderInputPage ps app b p = some page ∧ page.length = ps) ∧
      (1 ≤ T → renderOutputPage ps app b T = some (b.drop ((T - 1) * ps)) ∧
        renderInputPage ps app b T = some (b.drop ((T - 1) * ps)) ∧
        (b.drop ((T - 1) * ps)).length = b.length - (T - 1) * ps ∧
        1 ≤ b.length - (T - 1) * ps ∧ b.length - (T - 1) * ps ≤ ps) := by
  obtain ⟨T, hT, hTd, hle, hlt⟩ := pageCount_bounds ps b.length hps
  refine ⟨T, hT, hTd, ?_, hle, hlt, ?_, ?_⟩
  · intro h0
    rw [h0] at hlt
    by_contra hne
    have : 1 * ps ≤ T * ps := Nat.mul_le_mul_right _ (by omega)
    omega
  · intro p hp1 hpT
    obtain ⟨i, rfl⟩ : ∃ i, p = i + 1 := ⟨p - 1, by omega⟩
    have hbound : (((i : Int) + 1)) ≤ pageCount ps b.length := by
      rw [hT]; exact_mod_cast (Nat.le_of_lt hpT)
    refine ⟨(b.drop (i * ps)).take ps, ?_, ?_, ?_⟩
    · have := renderOutputPage_eq ps hps app b i hbound
      exact_mod_cast this
    · have := renderInputPage_eq ps hps app b i hbound
      exact_mod_cast this
    · have h1 : (i + 2) * ps ≤ T * ps := Nat.mul_le_mul_right _ (by omega)
      have h2 : (i + 2) * ps = i * ps + ps + ps := by ring
      simp only [List.length_take, List.length_drop]
      omega
  · intro hT1
    obtain ⟨i, rfl⟩ : ∃ i, T = i + 1 := ⟨T - 1, by omega⟩
    have hbound : (((i : Int) + 1)) ≤ pageCount ps b.length := by
      rw [hT]; push_cast; omega
    have h2 : (i + 1) * ps = i * ps + ps := by ring
    have htake : (b.drop (i * ps)).take ps = b.drop (i * ps) := by
      apply List.take_of_length_le
      simp only [List.length_drop]
      omega
    simp only [Nat.add_sub_cancel]
    refine ⟨?_, ?_, ?_, ?_, ?_⟩
    · have := renderOutputPage_eq ps hps app b i hbound
      rw [htake] at this
      exact_mod_cast this
    · have := renderInputPage_eq ps hps app b i hbound
      rw [htake] at this
      exact_mod_cast this
    · simp
    · omega
    · omega

/-- C9 at a blob of 12000 code points with the program's page size 5000: 3 pages, and page 3
is the final 2000 code points. -/
theorem page_count_and_sizes_witness :
    pageCount pageSize (List.replicate 12000 'a').length = 3 ∧
      renderOutputPage pageSize demoApp (List.replicate 12000 'a') 3 =
        some (List.replicate 2000 'a') := by
  obtain ⟨T, hT, hTd, _, _, _, _, hlast⟩ :=
    page_count_and_sizes pageSize (by decide) demoApp (List.replicate 12000 'a')
  have h3 : T = 3 := by rw [hTd, List.length_replicate]; decide
  subst h3
  refine ⟨hT, ?_⟩
  have hpage := (hlast (by decide)).1
  have e : 12000 - (3 - 1) * pageSize = 2000 := by decide
  rw [List.drop_replicate, e] at hpage
  exact hpage

/-- C10: `goToPage p` and `goToInputPage p` return the session unchanged (blobs, cursors and
what the widgets show) when `p < 1` or `p` exceeds the page count of the addressed buffer.
For `1 ≤ p ≤ totalPages`, on a session whose page count is the one derived from the blob
(the invariant of the page cursor), they set that buffer's current page to `p` and re-render
its box and label; both blobs, both page counts and the other buffer's current page are kept. -/
theorem goToPage_effect (app : converterApp) (p : Int) :
    ((p < 1 ∨ p > app.totalPages) → app.goToPage p = some app) ∧
    ((p < 1 ∨ p > app.inputTotalPages) → app.goToInputPage p = some app) ∧
    (app.totalPages = pageCount pageSize app.fullOutput.length → 1 ≤ p → p ≤ app.totalPages →
      app.goToPage p = some { app with
        currentPage := p
        outputBox := (app.fullOutput.drop ((p.toNat - 1) * pageSize)).take pageSize
        pageInfoLabel := if app.totalPages > 1 then pageLabel p app.totalPages else [] }) ∧
    (app.inputTotalPages = pageCount pageSize app.fullInput.length → 1 ≤ p →
      p ≤ app.inputTotalPages →
      app.goToInputPage p = some { app with
        inputCurrentPage := p
        inputBox := (app.fullInput.drop ((p.toNat - 1) * pageSize)).take pageSize
        inputPageLabel :=
          if app.inputTotalPages > 1 then pageLabel p app.inputTotalPages else [] }) := by
  refine ⟨?_, ?_, ?_, ?_⟩
  · intro h
    simp only [converterApp.goToPage, converterApp.goToPageWith, if_pos h]
  · intro h
    simp only [converterApp.goToInputPage, converterApp.goToInputPageWith, if_pos h]
  · intro hcons h1 h2
    exact goToPageWith_in_range pageSize (by decide) app p hcons h1 h2
  · intro hcons h1 h2
    exact goToInputPageWith_in_range pageSize (by decide) app p hcons h1 h2

/-- C10 on the session `demoApp` (3 pages): pages 0 and 4 are ignored, page 2 is shown. -/
theorem goToPage_effect_witness :
    demoApp.goToPage 0 = some demoApp ∧ demoApp.goToPage 4 = some demoApp ∧
      demoApp.goToInputPage 0 = some demoApp ∧ demoApp.goToInputPage 4 = some demoApp ∧
      (∃ a, demoApp.goToPage 2 = some a ∧ a.currentPage = 2 ∧ a.totalPages = 3 ∧
        a.fullOutput = demoApp.fullOutput ∧ a.fullInput = demoApp.fullInput ∧
        a.inputCurrentPage = 1 ∧ a.inputTotalPages = 3) ∧
      (∃ a, demoApp.goToInputPage 2 = some a ∧ a.inputCurrentPage = 2 ∧ a.inputTotalPages = 3 ∧
        a.fullOutput = demoApp.fullOutput ∧ a.fullInput = demoApp.fullInput ∧
        a.currentPage = 1 ∧ a.totalPages = 3) :=
  ⟨(goToPage_effect demoApp 0).1 (Or.inl (by decide)),
    (goToPage_effect demoApp 4).1 (Or.inr (by decide)),
    (goToPage_effect demoApp 0).2.1 (Or.inl (by decide)),
    (goToPage_effect demoApp 4).2.1 (Or.inr (by decide)),
    ⟨_, (goToPage_effect demoApp 2).2.2.1 demoApp_output_pages (by decide) (by decide),
      rfl, rfl, rfl, rfl, rfl, rfl⟩,
    ⟨_, (goToPage_effect demoApp 2).2.2.2 demoApp_input_pages (by decide) (by decide),
      rfl, rfl, rfl, rfl, rfl, rfl⟩⟩

/-! ## Lemmas: the tokenizer in the words of the spec -/

theorem fieldsLoop_eq_splitOnP (f : Char → Bool) (s cur : List Char) :
    fieldsLoop f cur s =
      ((s.splitOnP f).modifyHead (fun x => cur ++ x)).filter (fun x => !x.isEmpty) := by
  induction s generalizing cur with
  | nil =>
    simp only [fieldsLoop, List.splitOnP_nil, List.modifyHead_cons, List.append_nil]
    by_cases hc : cur = []
    · simp [hc]
    · simp [hc]
  | cons c cs ih =>
    rw [List.splitOnP_cons]
    by_cases hf : f c = true
    · simp only [fieldsLoop, hf, if_true, List.modifyHead_cons, List.append_nil]
      have h0 := ih []
      simp only [List.nil_append] at h0
      have hid : (cs.splitOnP f).modifyHead (fun x => x) = cs.splitOnP f := by
        cases cs.splitOnP f <;> simp
      rw [hid] at h0
      by_cases hc : cur = []
      · simp [hc, h0]
      · simp [hc, h0]
    · simp only [fieldsLoop, hf, if_false, Bool.false_eq_true, List.modifyHead_modifyHead]
      rw [ih (cur ++ [c])]
      congr 2
      funext x
      simp

/-- The fields `FieldsFunc` returns are the non-empty pieces of the text split at every
separator. -/
theorem FieldsFunc_eq_splitOnP (f : Char → Bool) (s : List Char) :
    FieldsFunc s f = (s.splitOnP f).filter (fun x => !x.isEmpty) := by
  unfold FieldsFunc
  rw [fieldsLoop_eq_splitOnP]
  congr 1
  cases s.splitOnP f <;> simp

theorem convertFormat_eq (input : List Char) :
    convertFormat input =
      (if Count input '\n' > Count input ',' then ",".toList else "\n".toList).intercalate
        ((FieldsFunc input isSep).map TrimSpace) := by
  unfold convertFormat
  simp only [writeItems_zero, id]
  by_cases h : Count input '\n' > Count input ','
  · simp [h]
  · simp [h]

/-- The delimiter written by `convertFormat` on a text that joins separator-free tokens with
one delimiter is the other delimiter, as far as a join of as many tokens can tell. -/
theorem infer_count_flip (sepc other : Char)
    (hsep : (sepc = ',' ∧ other = '\n') ∨ (sepc = '\n' ∧ other = ','))
    (toks toks2 : List (List Char)) (h : ∀ u ∈ toks, ∀ x ∈ u, isSep x = false)
    (hlen : toks2.length = toks.length) :
    (if Count ([sepc].intercalate toks) '\n' > Count ([sepc].intercalate toks) ','
      then ",".toList else "\n".toList).intercalate toks2 = [other].intercalate toks2 := by
  unfold Count
  rw [count_intercalate sepc '\n' toks (not_mem_of_sep_free _ (by decide) toks h),
    count_intercalate sepc ',' toks (not_mem_of_sep_free _ (by decide) toks h)]
  rcases hsep with ⟨hs, ho⟩ | ⟨hs, ho⟩ <;> subst hs <;> subst ho
  · simp
  · by_cases hl : toks.length ≤ 1
    · exact intercalate_short _ _ _ (by omega)
    · have : toks.length - 1 > 0 := by omega
      simp [this]

/-- `convertFormat` on a join of trimmed, non-empty, separator-free tokens. -/
theorem convertFormat_joined (sepc other : Char)
    (hsep : (sepc = ',' ∧ other = '\n') ∨ (sepc = '\n' ∧ other = ','))
    (toks : List (List Char))
    (h : ∀ u ∈ toks, (u ≠ [] ∧ ∀ x ∈ u, isSep x = false) ∧ TrimSpace u = u) :
    convertFormat ([sepc].intercalate toks) = [other].intercalate toks := by
  have hs : isSep sepc = true := by
    rcases hsep with ⟨hs, _⟩ | ⟨hs, _⟩ <;> subst hs <;> decide
  rw [convertFormat_eq, FieldsFunc_intercalate isSep sepc hs toks (fun u hu => (h u hu).1),
    infer_count_flip sepc other hsep toks _ (fun u hu => (h u hu).1.2) (by simp)]
  congr 1
  conv_rhs => rw [← List.map_id toks]
  apply List.map_congr_left
  intro u hu
  exact (h u hu).2

theorem convertFormat_twice (t : List Char)
    (h : ∀ item ∈ FieldsFunc t isSep, TrimSpace item ≠ []) :
    convertFormat (convertFormat t) =
      (if Count t '\n' > Count t ',' then "\n".toList else ",".toList).intercalate
        ((FieldsFunc t isSep).map TrimSpace) ∧
    convertFormat (convertFormat (convertFormat t)) = convertFormat t := by
  have htok : ∀ u ∈ (FieldsFunc t isSep).map TrimSpace,
      (u ≠ [] ∧ ∀ x ∈ u, isSep x = false) ∧ TrimSpace u = u := by
    intro u hu
    obtain ⟨it, hit, rfl⟩ := List.mem_map.mp hu
    exact ⟨⟨h it hit, fun x hx =>
      (FieldsFunc_fields isSep t it hit).2 x (mem_of_mem_TrimSpace _ _ hx)⟩, TrimSpace_idem it⟩
  rw [convertFormat_eq t]
  by_cases hc : Count t '\n' > Count t ','
  · simp only [hc, if_true]
    have e1 := convertFormat_joined ',' '\n' (Or.inl ⟨rfl, rfl⟩) _ htok
    have e2 := convertFormat_joined '\n' ',' (Or.inr ⟨rfl, rfl⟩) _ htok
    exact ⟨by rw [show ",".toList = [','] from rfl, e1]; rfl,
      by rw [show ",".toList = [','] from rfl, e1, e2]⟩
  · simp only [hc, if_false]
    have e1 := convertFormat_joined ',' '\n' (Or.inl ⟨rfl, rfl⟩) _ htok
    have e2 := convertFormat_joined '\n' ',' (Or.inr ⟨rfl, rfl⟩) _ htok
    exact ⟨by rw [show "\n".toList = ['\n'] from rfl, e2]; rfl,
      by rw [show "\n".toList = ['\n'] from rfl, e2, e1]⟩

/-! ## Lemmas: comma normalisation -/

theorem replaceCommasInner_eq (xs b : List Char) :
    replaceCommasInner xs b = b ++ xs.map (fun ch => if ch = '，' then ',' else ch) := by
  induction xs generalizing b with
  | nil => simp [replaceCommasInner]
  | cons x xs ih =>
    unfold replaceCommasInner
    split
    · rename_i hx
      rw [ih]; simp [hx]
    · rename_i hx
      rw [ih]; simp [hx]

/-- Chunk invariance of `replaceCommas`: with a chunk size of at least 1 and at least
`len(runes) - i` iterations allowed, the chunked loops started at offset `i` write what a
single pass over `runes[i:]` writes. -/
theorem replaceCommasOuter_eq (bs : Nat) (hbs : 1 ≤ bs) (runes : List Char)
    (fuel i : Nat) (b : List Char) (hf : runes.length ≤ fuel + i) :
    replaceCommasOuter bs runes fuel i b = replaceCommasInner (runes.drop i) b := by
  induction fuel generalizing i b with
  | zero =>
    have : runes.drop i = [] := List.drop_eq_nil_of_le (by omega)
    simp [replaceCommasOuter, this, replaceCommasInner]
  | succ fuel ih =>
    unfold replaceCommasOuter
    split
    · rename_i hi
      simp only
      rw [ih (i + bs) _ (by omega)]
      by_cases he : i + bs > runes.length
      · simp only [he, if_true, List.take_length]
        have : runes.drop (i + bs) = [] := List.drop_eq_nil_of_le (by omega)
        simp [this, replaceCommasInner]
      · simp only [he, if_false]
        have hsplit : runes.drop i = (runes.take (i + bs)).drop i ++ runes.drop (i + bs) := by
          conv_lhs => rw [← List.take_append_drop (i + bs) runes]
          rw [List.drop_append_of_le_length (by simp; omega)]
        rw [hsplit, replaceCommasInner_eq, replaceCommasInner_eq, replaceCommasInner_eq]
        simp
    · rename_i hi
      have : runes.drop i = [] := List.drop_eq_nil_of_le (by omega)
      simp [this, replaceCommasInner]

theorem replaceCommasTextWith_eq (bs : Nat) (hbs : 1 ≤ bs) (text : List Char) :
    replaceCommasTextWith bs text = text.map (fun ch => if ch = '，' then ',' else ch) := by
  unfold replaceCommasTextWith
  rw [replaceCommasOuter_eq bs hbs text _ 0 [] (by omega), List.drop_zero,
    replaceCommasInner_eq, List.nil_append]

theorem replaceCommasText_eq (text : List Char) :
    replaceCommasText text = text.map (fun ch => if ch = '，' then ',' else ch) :=
  replaceCommasTextWith_eq batchSize (by decide) text

/-! ## Lemmas: the handlers -/

theorem pageCount_zero : pageCount pageSize 0 = 0 := by
  rw [pageCount_eq _ _ (by decide)]
  decide

theorem showCurrentPage_first (app : converterApp) (h : app.currentPage = 1) :
    ∃ box label, app.showCurrentPage =
      some { app with outputBox := box, pageInfoLabel := label } := by
  by_cases hne : app.fullOutput = []
  · refine ⟨[], [], ?_⟩
    simp only [converterApp.showCurrentPage, converterApp.showCurrentPageWith, if_pos hne]
  · exact ⟨_, _, showCurrentPageWith_page pageSize app 0 hne (by rw [h]; rfl) (by simp)⟩

theorem showInputPage_first (app : converterApp) (h : app.inputCurrentPage = 1) :
    ∃ box label, app.showInputPage =
      some { app with inputBox := box, inputPageLabel := label } := by
  by_cases hne : app.fullInput = []
  · refine ⟨[], [], ?_⟩
    simp only [converterApp.showInputPage, converterApp.showInputPageWith, if_pos hne]
  · exact ⟨_, _, showInputPageWith_page pageSize app 0 hne (by rw [h]; rfl) (by simp)⟩

/-- A transform that writes the output blob: the blob is replaced, the cursor is reset to
page 1 of the recomputed page count, and the output box and its label are re-rendered. -/
theorem setOutput_spec (app : converterApp) (result : List Char) :
    ∃ box label, converterApp.showCurrentPage
        { app with fullOutput := result, currentPage := 1,
                   totalPages := pageCount pageSize result.length } =
      some { app with fullOutput := result, currentPage := 1,
                      totalPages := pageCount pageSize result.length,
                      outputBox := box, pageInfoLabel := label } :=
  showCurrentPage_first _ rfl

/-- A transform that writes the input blob. -/
theorem setInput_spec (app : converterApp) (result : List Char) :
    ∃ box label, converterApp.showInputPage
        { app with fullInput := result, inputCurrentPage := 1,
                   inputTotalPages := pageCount pageSize result.length } =
      some { app with fullInput := result, inputCurrentPage := 1,
                      inputTotalPages := pageCount pageSize result.length,
                      inputBox := box, inputPageLabel := label } :=
  showInputPage_first _ rfl

theorem encryptButton_spec (app : converterApp) :
    ∃ box label, app.encryptButton =
      some { app with fullOutput := app.encryptBatch app.inputText, currentPage := 1,
                      totalPages := pageCount pageSize (app.encryptBatch app.inputText).length,
                      outputBox := box, pageInfoLabel := label } :=
  setOutput_spec app _

theorem decryptButton_spec (app : converterApp) :
    ∃ box label, app.decryptButton =
      some { app with fullOutput := app.decryptBatch app.inputText, currentPage := 1,
                      totalPages := pageCount pageSize (app.decryptBatch app.inputText).length,
                      outputBox := box, pageInfoLabel := label } :=
  setOutput_spec app _

theorem updateOutput_spec (app : converterApp) :
    ∃ box label, app.updateOutput =
      some { app with fullOutput := convertFormat app.inputText, currentPage := 1,
                      totalPages := pageCount pageSize (convertFormat app.inputText).length,
                      outputBox := box, pageInfoLabel := label } :=
  setOutput_spec app _

theorem replaceCommas_spec (app : converterApp) :
    ∃ box label, app.replaceCommas =
      some { app with fullInput := replaceCommasText app.inputText, inputCurrentPage := 1,
                      inputTotalPages :=
                        pageCount pageSize (replaceCommasText app.inputText).length,
                      inputBox := box, inputPageLabel := label } :=
  setInput_spec app _

theorem pasteInput_spec (app : converterApp) (clipText : List Char) (h : clipText ≠ []) :
    ∃ box label, app.pasteInput clipText =
      some { app with fullInput := clipText, inputCurrentPage := 1,
                      inputTotalPages := pageCount pageSize clipText.length,
                      inputBox := box, inputPageLabel := label } := by
  unfold converterApp.pasteInput
  rw [if_neg h]
  exact setInput_spec app _

/-- `addRemoveQuotes` on the output box with a non-empty output blob. -/
theorem addRemoveQuotes_output_spec (app : converterApp) (action result : List Char)
    (hne : app.fullOutput ≠ [])
    (hres : (if action = "add".toList then some (addQuotes app.fullOutput)
      else removeQuotes app.fullOutput) = some result) :
    ∃ box label, app.addRemoveQuotes Box.output action =
      some { app with fullOutput := result, currentPage := 1,
                      totalPages := pageCount pageSize result.length,
                      outputBox := box, pageInfoLabel := label } := by
  unfold converterApp.addRemoveQuotes
  simp only [if_true, if_neg hne, hres]
  exact setOutput_spec app _

/-- `addRemoveQuotes` on the input box with a non-empty input text. -/
theorem addRemoveQuotes_input_spec (app : converterApp) (action result : List Char)
    (hne : app.inputText ≠ [])
    (hres : (if action = "add".toList then some (addQuotes app.inputText)
      else removeQuotes app.inputText) = some result) :
    ∃ box label, app.addRemoveQuotes Box.input action =
      some { app with fullInput := result, inputCurrentPage := 1,
                      inputTotalPages := pageCount pageSize result.length,
                      inputBox := box, inputPageLabel := label } := by
  unfold converterApp.addRemoveQuotes
  have hb : ¬ (Box.input = Box.output) := by decide
  simp only [if_neg hb, if_neg hne, hres]
  exact setInput_spec app _

/-! ## Lemmas: the cursor invariant -/

theorem cursorOK_first (blob : List Char) :
    cursorOK blob 1 (pageCount pageSize blob.length) :=
  ⟨rfl, le_refl _, fun h => by omega, fun _ => rfl⟩

theorem cursorOK_empty : cursorOK [] 1 0 :=
  ⟨pageCount_zero.symm, le_refl _, fun h => by omega, fun _ => rfl⟩

theorem newConverterApp_cursorsOK (h : HashID) : (newConverterApp h).cursorsOK :=
  ⟨cursorOK_empty, cursorOK_empty⟩

theorem step_cursorsOK (app a : converterApp) (op : Op) (hinv : app.cursorsOK)
    (hstep : step app op = some a) : a.cursorsOK := by
  cases op with
  | typeInput text =>
    simp only [step, Option.some.injEq] at hstep
    subst hstep
    exact hinv
  | typeOutput text =>
    simp only [step, Option.some.injEq] at hstep
    subst hstep
    exact hinv
  | paste clipText =>
    simp only [step] at hstep
    by_cases hc : clipText = []
    · simp only [converterApp.pasteInput, if_pos hc, Option.some.injEq] at hstep
      subst hstep
      exact hinv
    · obtain ⟨box, label, hs⟩ := pasteInput_spec app clipText hc
      rw [hs, Option.some.injEq] at hstep
      subst hstep
      exact ⟨hinv.1, cursorOK_first clipText⟩
  | clear box =>
    simp only [step, Option.some.injEq] at hstep
    subst hstep
    cases box with
    | input => exact ⟨hinv.1, cursorOK_empty⟩
    | output => exact ⟨cursorOK_empty, hinv.2⟩
  | encrypt =>
    obtain ⟨box, label, hs⟩ := encryptButton_spec app
    simp only [step] at hstep
    rw [hs, Option.some.injEq] at hstep
    subst hstep
    exact ⟨cursorOK_first _, hinv.2⟩
  | decrypt =>
    obtain ⟨box, label, hs⟩ := decryptButton_spec app
    simp only [step] at hstep
    rw [hs, Option.some.injEq] at hstep
    subst hstep
    exact ⟨cursorOK_first _, hinv.2⟩
  | formatFlip =>
    obtain ⟨box, label, hs⟩ := updateOutput_spec app
    simp only [step] at hstep
    rw [hs, Option.some.injEq] at hstep
    subst hstep
    exact ⟨cursorOK_first _, hinv.2⟩
  | replaceCommas =>
    obtain ⟨box, label, hs⟩ := replaceCommas_spec app
    simp only [step] at hstep
    rw [hs, Option.some.injEq] at hstep
    subst hstep
    exact ⟨hinv.1, cursorOK_first _⟩
  | quotes box action =>
    simp only [step] at hstep
    cases box with
    | output =>
      by_cases hne : app.fullOutput = []
      · simp only [converterApp.addRemoveQuotes, if_true, if_pos hne, Option.some.injEq]
          at hstep
        subst hstep
        exact hinv
      · cases hres : (if action = "add".toList then some (addQuotes app.fullOutput)
            else removeQuotes app.fullOutput) with
        | none =>
          simp only [converterApp.addRemoveQuotes, if_true, if_neg hne, hres] at hstep
          exact absurd hstep (by simp)
        | some result =>
          obtain ⟨b, l, hs⟩ := addRemoveQuotes_output_spec app action result hne hres
          rw [hs, Option.some.injEq] at hstep
          subst hstep
          exact ⟨cursorOK_first _, hinv.2⟩
    | input =>
      have hb : ¬ (Box.input = Box.output) := by decide
      by_cases hne : app.inputText = []
      · simp only [converterApp.addRemoveQuotes, if_neg hb, if_pos hne, Option.some.injEq]
          at hstep
        subst hstep
        exact hinv
      · cases hres : (if action = "add".toList then some (addQuotes app.inputText)
            else removeQuotes app.inputText) with
        | none =>
          simp only [converterApp.addRemoveQuotes, if_neg hb, if_neg hne, hres] at hstep
          exact absurd hstep (by simp)
        | some result =>
          obtain ⟨b, l, hs⟩ := addRemoveQuotes_input_spec app action result hne hres
          rw [hs, Option.some.injEq] at hstep
          subst hstep
          exact ⟨hinv.1, cursorOK_first _⟩
  | goToPage page =>
    simp only [step] at hstep
    by_cases hr : page < 1 ∨ page > app.totalPages
    · simp only [converterApp.goToPage, converterApp.goToPageWith, if_pos hr,
        Option.some.injEq] at hstep
      subst hstep
      exact hinv
    · have h1 : 1 ≤ page := by omega
      have h2 : page ≤ app.totalPages := by omega
      have hs := goToPageWith_in_range pageSize (by decide) app page hinv.1.1 h1 h2
      simp only [converterApp.goToPage] at hstep
      rw [hs, Option.some.injEq] at hstep
      subst hstep
      refine ⟨⟨hinv.1.1, h1, fun _ => h2, fun h0 => ?_⟩, hinv.2⟩
      have h0 : app.totalPages = 0 := h0
      omega
  | goToInputPage page =>
    simp only [step] at hstep
    by_cases hr : page < 1 ∨ page > app.inputTotalPages
    · simp only [converterApp.goToInputPage, converterApp.goToInputPageWith, if_pos hr,
        Option.some.injEq] at hstep
      subst hstep
      exact hinv
    · have h1 : 1 ≤ page := by omega
      have h2 : page ≤ app.inputTotalPages := by omega
      have hs := goToInputPageWith_in_range pageSize (by decide) app page hinv.2.1 h1 h2
      simp only [converterApp.goToInputPage] at hstep
      rw [hs, Option.some.injEq] at hstep
      subst hstep
      refine ⟨hinv.1, ⟨hinv.2.1, h1, fun _ => h2, fun h0 => ?_⟩⟩
      have h0 : app.inputTotalPages = 0 := h0
      omega

/-- The cursor invariant is kept by every sequence of events. -/
theorem run_cursorsOK (ops : List Op) (app a : converterApp) (hinv : app.cursorsOK)
    (hrun : run ops app = some a) : a.cursorsOK := by
  induction ops generalizing app with
  | nil =>
    simp only [run, Option.some.injEq] at hrun
    subst hrun
    exact hinv
  | cons op ops ih =>
    simp only [run] at hrun
    cases hs : step app op with
    | none => rw [hs] at hrun; exact absurd hrun (by simp)
    | some b =>
      rw [hs, Option.some_bind] at hrun
      exact ih b (step_cursorsOK app b op hinv hs) hrun

/-- Under the cursor invariant the slice bounds of a page are in range. -/
theorem cursorOK_bounds (blob : List Char) (cur total : Int) (h : cursorOK blob cur total) :
    0 ≤ (cur - 1) * pageSize ∧
      (cur - 1) * pageSize ≤
        (if cur * pageSize > blob.length then (blob.length : Int) else cur * pageSize) ∧
      (if cur * pageSize > blob.length then (blob.length : Int) else cur * pageSize) ≤
        blob.length := by
  obtain ⟨htot, h1, hle, hzero⟩ := h
  obtain ⟨T, hT, _, hn, hlt⟩ := pageCount_bounds pageSize blob.length (by decide)
  rw [hT] at htot
  simp only [pageSize] at hn hlt ⊢
  by_cases hT0 : T = 0
  · have hc : cur = 1 := hzero (by rw [htot, hT0]; rfl)
    subst hc
    split <;> omega
  · have hc : cur ≤ T := by
      have := hle (by rw [htot]; exact_mod_cast Nat.pos_of_ne_zero hT0)
      rw [htot] at this
      exact this
    split <;> omega

theorem showCurrentPage_of_cursorOK (app : converterApp)
    (h : cursorOK app.fullOutput app.currentPage app.totalPages) :
    ∃ a, app.showCurrentPage = some a := by
  by_cases hne : app.fullOutput = []
  · exact ⟨{ app with outputBox := [], pageInfoLabel := [] }, by
      simp only [converterApp.showCurrentPage, converterApp.showCurrentPageWith, if_pos hne]⟩
  · have hb := cursorOK_bounds _ _ _ h
    have h1 := h.2.1
    refine ⟨_, showCurrentPageWith_page pageSize app (app.currentPage - 1).toNat hne
      (by omega) ?_⟩
    have : (((app.currentPage - 1).toNat * pageSize : Nat) : Int) =
        (app.currentPage - 1) * pageSize := by
      push_cast
      rw [Int.toNat_of_nonneg (by omega)]
    have hle := hb.2.1.trans hb.2.2
    rw [← this] at hle
    exact_mod_cast hle

theorem showInputPage_of_cursorOK (app : converterApp)
    (h : cursorOK app.fullInput app.inputCurrentPage app.inputTotalPages) :
    ∃ a, app.showInputPage = some a := by
  by_cases hne : app.fullInput = []
  · exact ⟨{ app with inputBox := [], inputPageLabel := [] }, by
      simp only [converterApp.showInputPage, converterApp.showInputPageWith, if_pos hne]⟩
  · have hb := cursorOK_bounds _ _ _ h
    have h1 := h.2.1
    refine ⟨_, showInputPageWith_page pageSize app (app.inputCurrentPage - 1).toNat hne
      (by omega) ?_⟩
    have : (((app.inputCurrentPage - 1).toNat * pageSize : Nat) : Int) =
        (app.inputCurrentPage - 1) * pageSize := by
      push_cast
      rw [Int.toNat_of_nonneg (by omega)]
    have hle := hb.2.1.trans hb.2.2
    rw [← this] at hle
    exact_mod_cast hle

/-- Under the cursor invariant every event other than strip-quotes yields a next state. -/
theorem step_total (app : converterApp) (op : Op) (hinv : app.cursorsOK)
    (hop : op.isStrip = false) : ∃ a, step app op = some a := by
  cases op with
  | typeInput text => exact ⟨_, rfl⟩
  | typeOutput text => exact ⟨_, rfl⟩
  | paste clipText =>
    by_cases hc : clipText = []
    · exact ⟨app, by simp only [step, converterApp.pasteInput, if_pos hc]⟩
    · obtain ⟨box, label, hs⟩ := pasteInput_spec app clipText hc
      exact ⟨_, hs⟩
  | clear box => exact ⟨_, rfl⟩
  | encrypt =>
    obtain ⟨box, label, hs⟩ := encryptButton_spec app
    exact ⟨_, hs⟩
  | decrypt =>
    obtain ⟨box, label, hs⟩ := decryptButton_spec app
    exact ⟨_, hs⟩
  | formatFlip =>
    obtain ⟨box, label, hs⟩ := updateOutput_spec app
    exact ⟨_, hs⟩
  | replaceCommas =>
    obtain ⟨box, label, hs⟩ := replaceCommas_spec app
    exact ⟨_, hs⟩
  | quotes box action =>
    have hact : action = "add".toList := by
      simpa [Op.isStrip] using hop
    cases box with
    | output =>
      by_cases hne : app.fullOutput = []
      · exact ⟨app, by simp only [step, converterApp.addRemoveQuotes, if_true, if_pos hne]⟩
      · obtain ⟨b, l, hs⟩ := addRemoveQuotes_output_spec app action
          (addQuotes app.fullOutput) hne (by rw [if_pos hact])
        exact ⟨_, hs⟩
    | input =>
      by_cases hne : app.inputText = []
      · have hb : ¬ (Box.input = Box.output) := by decide
        exact ⟨app, by simp only [step, converterApp.addRemoveQuotes, if_neg hb, if_pos hne]⟩
      · obtain ⟨b, l, hs⟩ := addRemoveQuotes_input_spec app action
          (addQuotes app.inputText) hne (by rw [if_pos hact])
        exact ⟨_, hs⟩
  | goToPage page =>
    by_cases hr : page < 1 ∨ page > app.totalPages
    · exact ⟨app, by simp only [step, converterApp.goToPage, converterApp.goToPageWith,
        if_pos hr]⟩
    · exact ⟨_, goToPageWith_in_range pageSize (by decide) app page hinv.1.1 (by omega)
        (by omega)⟩
  | goToInputPage page =>
    by_cases hr : page < 1 ∨ page > app.inputTotalPages
    · exact ⟨app, by simp only [step, converterApp.goToInputPage,
        converterApp.goToInputPageWith, if_pos hr]⟩
    · exact ⟨_, goToInputPageWith_in_range pageSize (by decide) app page hinv.2.1 (by omega)
        (by omega)⟩

/-- A sequence of events without strip-quotes runs to a final state. -/
theorem run_total (ops : List Op) (app : converterApp) (hinv : app.cursorsOK)
    (hops : ops.all (fun op => !op.isStrip) = true) : ∃ a, run ops app = some a := by
  induction ops generalizing app with
  | nil => exact ⟨app, rfl⟩
  | cons op ops ih =>
    simp only [List.all_cons, Bool.and_eq_true, Bool.not_eq_true'] at hops
    obtain ⟨b, hb⟩ := step_total app op hinv hops.1
    obtain ⟨a, ha⟩ := ih b (step_cursorsOK app b op hinv hb) hops.2
    exact ⟨a, by simp only [run, hb, Option.some_bind, ha]⟩

/-! ## Lemmas: an unlocked read of the cursor -/

theorem ParseInt_none_of_head (c : Char) (rest : List Char) (h1 : c ≠ '+') (h2 : c ≠ '-')
    (h3 : digitVal c = none) : ParseInt (c :: rest) = none := by
  simp [ParseInt, ParseUint, parseDigits, h1, h2, h3]

/-- A text that is one token without white space and that does not parse as a number is
returned unchanged by `encryptBatch`. -/
theorem encryptBatch_single_passthrough (app : converterApp) (tok : List Char)
    (hne : tok ≠ []) (hplain : ∀ c ∈ tok, isSep c = false ∧ isSpace c = false)
    (hparse : ParseInt tok = none) : app.encryptBatch tok = tok := by
  have hf : FieldsFunc tok isSep = [tok] := by
    have := FieldsFunc_intercalate isSep ',' (by decide) [tok]
      (by simpa using ⟨hne, fun c hc => (hplain c hc).1⟩)
    simpa [List.intercalate] using this
  unfold converterApp.encryptBatch
  simp only [hf, writeItems_zero, List.map_singleton]
  rw [TrimSpace_of_no_space tok (fun c hc => (hplain c hc).2)]
  simp [List.intercalate, converterApp.encrypt, hparse]

theorem encryptBatch_demo_input (app : converterApp) :
    app.encryptBatch (List.replicate 12000 'b') = List.replicate 12000 'b' := by
  apply encryptBatch_single_passthrough
  · intro h
    have := congrArg List.length h
    rw [List.length_replicate] at this
    exact absurd this (by decide)
  · intro c hc
    rw [List.eq_of_mem_replicate hc]
    exact ⟨by decide, by decide⟩
  · rw [show (12000 : Nat) = 11999 + 1 from rfl, List.replicate_succ]
    exact ParseInt_none_of_head 'b' _ (by decide) (by decide) (by decide)

theorem pageCount_12000 : pageCount pageSize (List.replicate 12000 'b').length = 3 := by
  rw [List.length_replicate, pageCount_eq _ _ (by decide)]
  decide

/-! ## Claims C11 to C20 -/

/-- C11: the quote transforms do not apply the tokenizer rule.  The text `a,b,c⏎d` has one
newline and three commas, so the counting rule (the one `decryptBatch` applies: its tokens
come back joined by commas) infers the comma; `removeQuotes` and the add branch of
`addRemoveQuotes` test `strings.Contains(text, "\n")` instead and rejoin the tokens with
newlines.  On the spec's example `'a', b , 'c'`, which has no newline, both rules agree. -/
theorem quote_transforms_join_by_contains :
    Count "a,b,c\nd".toList '\n' < Count "a,b,c\nd".toList ',' ∧
      (newConverterApp demoHashID).decryptBatch "a,b,c\nd".toList = "a,b,c,d".toList ∧
      removeQuotes "a,b,c\nd".toList = some "a\nb\nc\nd".toList ∧
      addQuotes "a,b,c\nd".toList = "'a'\n'b'\n'c'\n'd'".toList ∧
      removeQuotes "'a', b , 'c'".toList = some "a,b,c".toList := by
  decide

/-- C12: for every text, `convertFormat` returns the text's tokens (the non-empty fields
between separators, each trimmed) unchanged and in order, joined by `,` when the text has
strictly more newlines than commas and by a newline otherwise, with no delimiter before the
first or after the last token. -/
theorem convertFormat_spec (input : List Char) :
    convertFormat input =
      (if Count input '\n' > Count input ',' then ",".toList else "\n".toList).intercalate
        (specTokens input) := by
  rw [convertFormat_eq, FieldsFunc_eq_splitOnP]
  rfl

/-- C13: chunk invariance.  For every chunk size `batchSize ≥ 1` and every text, the chunked
loops of the add-quotes branch (chunks of tokens) and of `replaceCommas` (chunks of code
points) produce the output of the single unchunked pass; the result does not depend on the
chunk size. -/
theorem chunk_invariance (bs : Nat) (hbs : 1 ≤ bs) (text : List Char) :
    addQuotesWith bs text = addQuotesUnchunked text ∧
      replaceCommasTextWith bs text = replaceCommasUnchunked text := by
  constructor
  · rw [addQuotesWith_eq bs hbs]
    unfold addQuotesUnchunked
    simp only
    rw [addQuotesInner_zero]
  · rw [replaceCommasTextWith_eq bs hbs]
    unfold replaceCommasUnchunked
    rw [replaceCommasInner_eq, List.nil_append]

/-- C13 with chunks of 2 on a text of five tokens and seven code points. -/
theorem chunk_invariance_witness :
    addQuotesWith 2 "a,b，,c,d".toList = addQuotesUnchunked "a,b，,c,d".toList ∧
      replaceCommasTextWith 2 "a,b，,c,d".toList = replaceCommasUnchunked "a,b，,c,d".toList :=
  chunk_invariance 2 (by decide) "a,b，,c,d".toList

/-- C14: the blob produced by `replaceCommas` has as many code points as the input, has `,`
at every position where the input has the full-width comma U+FF0C and the input's own code
point at every other position; it contains no U+FF0C, and normalising it again changes
nothing. -/
theorem replaceCommas_pointwise (app : converterApp) :
    ∃ a, app.replaceCommas = some a ∧
      a.fullInput.length = app.inputText.length ∧
      (∀ i : Nat, a.fullInput[i]? =
        (app.inputText[i]?).map (fun ch => if ch = '，' then ',' else ch)) ∧
      '，' ∉ a.fullInput ∧ replaceCommasText a.fullInput = a.fullInput := by
  obtain ⟨box, label, hs⟩ := replaceCommas_spec app
  refine ⟨_, hs, ?_, ?_, ?_, ?_⟩
  · show (replaceCommasText app.inputText).length = _
    rw [replaceCommasText_eq, List.length_map]
  · intro i
    show (replaceCommasText app.inputText)[i]? = _
    rw [replaceCommasText_eq, List.getElem?_map]
  · show '，' ∉ replaceCommasText app.inputText
    rw [replaceCommasText_eq]
    intro hmem
    obtain ⟨ch, _, hch⟩ := List.mem_map.mp hmem
    split at hch
    · exact absurd hch (by decide)
    · rename_i hne
      exact hne hch
  · show replaceCommasText (replaceCommasText app.inputText) = replaceCommasText app.inputText
    rw [replaceCommasText_eq, replaceCommasText_eq, List.map_map]
    apply List.map_congr_left
    intro ch _
    simp only [Function.comp_apply]
    split
    · rfl
    · rfl

/-- C15: in a session whose buffers are empty (both blobs and the typed text empty, cursors
as the invariant has them), every transform leaves its target blob empty with
`totalPages = 0` and `currentPage = 1`: encrypt, decrypt and the format flip on the output
buffer, `replaceCommas` on the input buffer, and add-quotes / strip-quotes on either box. -/
theorem transforms_on_empty (app : converterApp) (hin : app.fullInput = [])
    (hout : app.fullOutput = []) (hdraft : app.inputBox = []) (hinv : app.cursorsOK) :
    (∃ a, app.encryptButton = some a ∧ a.fullOutput = [] ∧ a.totalPages = 0 ∧
      a.currentPage = 1) ∧
    (∃ a, app.decryptButton = some a ∧ a.fullOutput = [] ∧ a.totalPages = 0 ∧
      a.currentPage = 1) ∧
    (∃ a, app.updateOutput = some a ∧ a.fullOutput = [] ∧ a.totalPages = 0 ∧
      a.currentPage = 1) ∧
    (∃ a, app.replaceCommas = some a ∧ a.fullInput = [] ∧ a.inputTotalPages = 0 ∧
      a.inputCurrentPage = 1) ∧
    (∀ action, ∃ a, app.addRemoveQuotes Box.output action = some a ∧ a.fullOutput = [] ∧
      a.totalPages = 0 ∧ a.currentPage = 1) ∧
    (∀ action, ∃ a, app.addRemoveQuotes Box.input action = some a ∧ a.fullInput = [] ∧
      a.inputTotalPages = 0 ∧ a.inputCurrentPage = 1) := by
  have htext : app.inputText = [] := by
    simp only [converterApp.inputText, if_pos hin, hdraft]
  have henc : app.encryptBatch [] = [] := rfl
  have hdec : app.decryptBatch [] = [] := rfl
  have hflip : convertFormat [] = [] := rfl
  have hrep : replaceCommasText [] = [] := rfl
  have htot : app.totalPages = 0 := by
    rw [hinv.1.1, hout]; exact pageCount_zero
  have hitot : app.inputTotalPages = 0 := by
    rw [hinv.2.1, hin]; exact pageCount_zero
  refine ⟨?_, ?_, ?_, ?_, ?_, ?_⟩
  · obtain ⟨box, label, hs⟩ := encryptButton_spec app
    rw [htext, henc] at hs
    exact ⟨_, hs, rfl, pageCount_zero, rfl⟩
  · obtain ⟨box, label, hs⟩ := decryptButton_spec app
    rw [htext, hdec] at hs
    exact ⟨_, hs, rfl, pageCount_zero, rfl⟩
  · obtain ⟨box, label, hs⟩ := updateOutput_spec app
    rw [htext, hflip] at hs
    exact ⟨_, hs, rfl, pageCount_zero, rfl⟩
  · obtain ⟨box, label, hs⟩ := replaceCommas_spec app
    rw [htext, hrep] at hs
    exact ⟨_, hs, rfl, pageCount_zero, rfl⟩
  · intro action
    refine ⟨app, ?_, hout, htot, hinv.1.2.2.2 htot⟩
    simp only [converterApp.addRemoveQuotes, if_true, if_pos hout]
  · intro action
    have hb : ¬ (Box.input = Box.output) := by decide
    refine ⟨app, ?_, hin, hitot, hinv.2.2.2.2 hitot⟩
    simp only [converterApp.addRemoveQuotes, if_neg hb, if_pos htext]

/-- C15 on the initial session. -/
theorem transforms_on_empty_witness :
    (∃ a, (newConverterApp demoHashID).encryptButton = some a ∧ a.fullOutput = [] ∧
      a.totalPages = 0 ∧ a.currentPage = 1) ∧
    (∃ a, (newConverterApp demoHashID).replaceCommas = some a ∧ a.fullInput = [] ∧
      a.inputTotalPages = 0 ∧ a.inputCurrentPage = 1) :=
  ⟨(transforms_on_empty (newConverterApp demoHashID) rfl rfl rfl
      (newConverterApp_cursorsOK demoHashID)).1,
    (transforms_on_empty (newConverterApp demoHashID) rfl rfl rfl
      (newConverterApp_cursorsOK demoHashID)).2.2.2.1⟩

/-- C16 as stated fails: with no input committed and a typed draft, `replaceCommas` and
`addRemoveQuotes` on the input box store their result in `fullInput`, so the (transformed)
draft becomes the full input. -/
theorem draft_promoted_by_input_transforms :
    (converterApp.replaceCommas
        { newConverterApp demoHashID with inputBox := "a，b".toList }).map
      (fun a => a.fullInput) = some "a,b".toList ∧
    (converterApp.addRemoveQuotes
        { newConverterApp demoHashID with inputBox := "a".toList } Box.input "add".toList).map
      (fun a => a.fullInput) = some "'a'".toList ∧
    (converterApp.addRemoveQuotes
        { newConverterApp demoHashID with inputBox := "'a'".toList }
        Box.input "remove".toList).map
      (fun a => a.fullInput) = some "a".toList := by
  decide

/-- C16 (amended): while no full input is committed and the typed draft is non-empty, every
operation takes the draft as its input.  Encrypt, decrypt and the format flip write the output
blob and leave `fullInput` empty.  Normalize-comma, add-quotes and strip-quotes on the input
box store their result as the new `fullInput`; on the output box add-quotes and strip-quotes
work on the output blob and leave `fullInput` empty. -/
theorem draft_is_the_input (app : converterApp) (hfull : app.fullInput = [])
    (hdraft : app.inputBox ≠ []) :
    (∃ a, app.encryptButton = some a ∧ a.fullOutput = app.encryptBatch app.inputBox ∧
      a.fullInput = []) ∧
    (∃ a, app.decryptButton = some a ∧ a.fullOutput = app.decryptBatch app.inputBox ∧
      a.fullInput = []) ∧
    (∃ a, app.updateOutput = some a ∧ a.fullOutput = convertFormat app.inputBox ∧
      a.fullInput = []) ∧
    (∃ a, app.replaceCommas = some a ∧ a.fullInput = replaceCommasText app.inputBox) ∧
    (∃ a, app.addRemoveQuotes Box.input "add".toList = some a ∧
      a.fullInput = addQuotes app.inputBox) ∧
    (∀ action r, action ≠ "add".toList → removeQuotes app.inputBox = some r →
      ∃ a, app.addRemoveQuotes Box.input action = some a ∧ a.fullInput = r) ∧
    (∀ action a, app.addRemoveQuotes Box.output action = some a → a.fullInput = []) := by
  have htext : app.inputText = app.inputBox := by
    simp only [converterApp.inputText, if_pos hfull]
  have hne : app.inputText ≠ [] := by rw [htext]; exact hdraft
  refine ⟨?_, ?_, ?_, ?_, ?_, ?_, ?_⟩
  · obtain ⟨box, label, hs⟩ := encryptButton_spec app
    rw [htext] at hs
    exact ⟨_, hs, rfl, hfull⟩
  · obtain ⟨box, label, hs⟩ := decryptButton_spec app
    rw [htext] at hs
    exact ⟨_, hs, rfl, hfull⟩
  · obtain ⟨box, label, hs⟩ := updateOutput_spec app
    rw [htext] at hs
    exact ⟨_, hs, rfl, hfull⟩
  · obtain ⟨box, label, hs⟩ := replaceCommas_spec app
    rw [htext] at hs
    exact ⟨_, hs, rfl⟩
  · obtain ⟨box, label, hs⟩ := addRemoveQuotes_input_spec app "add".toList
      (addQuotes app.inputText) hne (by simp)
    rw [htext] at hs
    exact ⟨_, hs, rfl⟩
  · intro action r hact hr
    obtain ⟨box, label, hs⟩ := addRemoveQuotes_input_spec app action r hne
      (by rw [if_neg hact, htext]; exact hr)
    exact ⟨_, hs, rfl⟩
  · intro action a ha
    by_cases hout : app.fullOutput = []
    · simp only [converterApp.addRemoveQuotes, if_true, if_pos hout, Option.some.injEq] at ha
      subst ha
      exact hfull
    · cases hres : (if action = "add".toList then some (addQuotes app.fullOutput)
          else removeQuotes app.fullOutput) with
      | none =>
        simp only [converterApp.addRemoveQuotes, if_true, if_neg hout, hres] at ha
        exact absurd ha (by simp)
      | some result =>
        obtain ⟨b, l, hs⟩ := addRemoveQuotes_output_spec app action result hout hres
        rw [hs, Option.some.injEq] at ha
        subst ha
        exact hfull

/-- C16 (amended) on a fresh session with the draft `12,-3`. -/
theorem draft_is_the_input_witness :
    (∃ a, (converterApp.encryptButton
        { newConverterApp demoHashID with inputBox := "12,-3".toList }) = some a ∧
      a.fullOutput = "h12,-3".toList ∧ a.fullInput = []) ∧
    (∃ a, (converterApp.replaceCommas
        { newConverterApp demoHashID with inputBox := "12,-3".toList }) = some a ∧
      a.fullInput = "12,-3".toList) := by
  have h := draft_is_the_input { newConverterApp demoHashID with inputBox := "12,-3".toList }
    rfl (by decide)
  obtain ⟨a, ha, hout, hin⟩ := h.1
  obtain ⟨b, hb, hbin⟩ := h.2.2.2.1
  exact ⟨⟨a, ha, hout.trans (by decide), hin⟩, ⟨b, hb, hbin.trans (by decide)⟩⟩

/-- C17: the cursor invariant.  After any sequence of events from the initial session (edits
of the boxes, paste, clear input / output, encrypt, decrypt, format flip, add / strip quotes on
either box, replace commas, `goToPage`, `goToInputPage`), each buffer has
`totalPages = ceil(codePoints(blob) / pageSize)`, `currentPage ≥ 1`,
`currentPage ≤ totalPages` when `totalPages > 0`, and `currentPage = 1` when
`totalPages = 0`. -/
theorem cursor_invariant (h : HashID) (ops : List Op) (app : converterApp)
    (hrun : run ops (newConverterApp h) = some app) :
    (app.totalPages = pageCount pageSize app.fullOutput.length ∧ 1 ≤ app.currentPage ∧
      (0 < app.totalPages → app.currentPage ≤ app.totalPages) ∧
      (app.totalPages = 0 → app.currentPage = 1)) ∧
    (app.inputTotalPages = pageCount pageSize app.fullInput.length ∧
      1 ≤ app.inputCurrentPage ∧
      (0 < app.inputTotalPages → app.inputCurrentPage ≤ app.inputTotalPages) ∧
      (app.inputTotalPages = 0 → app.inputCurrentPage = 1)) :=
  run_cursorsOK ops _ app (newConverterApp_cursorsOK h) hrun

/-- C17 after typing, encrypting, quoting the output, navigating, pasting, normalising commas
and clearing the output. -/
theorem cursor_invariant_witness :
    ∃ app, run [Op.typeInput "1,2,x".toList, Op.encrypt, Op.quotes Box.output "add".toList,
        Op.goToPage 1, Op.goToPage 2, Op.paste "a，b".toList, Op.replaceCommas,
        Op.goToInputPage 1, Op.decrypt, Op.clear Box.output] (newConverterApp demoHashID) =
        some app ∧
      (app.totalPages = pageCount pageSize app.fullOutput.length ∧ 1 ≤ app.currentPage ∧
        (0 < app.totalPages → app.currentPage ≤ app.totalPages) ∧
        (app.totalPages = 0 → app.currentPage = 1)) ∧
      (app.inputTotalPages = pageCount pageSize app.fullInput.length ∧
        1 ≤ app.inputCurrentPage ∧
        (0 < app.inputTotalPages → app.inputCurrentPage ≤ app.inputTotalPages) ∧
        (app.inputTotalPages = 0 → app.inputCurrentPage = 1)) := by
  obtain ⟨app, happ⟩ := run_total [Op.typeInput "1,2,x".toList, Op.encrypt,
    Op.quotes Box.output "add".toList, Op.goToPage 1, Op.goToPage 2, Op.paste "a，b".toList,
    Op.replaceCommas, Op.goToInputPage 1, Op.decrypt, Op.clear Box.output]
    (newConverterApp demoHashID) (newConverterApp_cursorsOK demoHashID) (by decide)
  exact ⟨app, happ, cursor_invariant demoHashID _ app happ⟩

/-- C18: not every read of a page cursor happens under the mutex.  The handler of "下一页"
evaluates `app.currentPage + 1` before `goToPage` locks, so another handler can run in
between.  From a session showing page 2 of 3: the argument is read as 3, the handler of "加密"
then replaces the output blob and resets the cursor to page 1 of the new blob, and `goToPage 3`
then shows page 3 of the new blob.  Run one after the other, in either order, the two handlers
end on page 1 or on page 2: the caller has paired a cursor read from the old blob with the new
blob. -/
theorem next_page_reads_cursor_unlocked :
    (∃ s1 s2, converterApp.encryptButton { demoApp with currentPage := 2 } = some s1 ∧
      s1.goToPage (converterApp.nextPageArg { demoApp with currentPage := 2 }) = some s2 ∧
      s2.currentPage = 3 ∧ s2.fullOutput = List.replicate 12000 'b') ∧
    (∀ a b, converterApp.goToPage { demoApp with currentPage := 2 }
        (converterApp.nextPageArg { demoApp with currentPage := 2 }) = some a →
      a.encryptButton = some b → b.currentPage = 1) ∧
    (∀ a b, converterApp.encryptButton { demoApp with currentPage := 2 } = some a →
      a.goToPage a.nextPageArg = some b → b.currentPage = 2) := by
  have htext : converterApp.inputText { demoApp with currentPage := 2 } =
      List.replicate 12000 'b' := by
    simp only [converterApp.inputText]
    rw [if_neg]
    · rfl
    · intro h
      have := congrArg List.length h
      exact absurd this (by
        show (List.replicate 12000 'b').length ≠ 0
        rw [List.length_replicate]; decide)
  obtain ⟨box, label, hs⟩ := encryptButton_spec { demoApp with currentPage := 2 }
  rw [htext, encryptBatch_demo_input, pageCount_12000] at hs
  refine ⟨?_, ?_, ?_⟩
  · have hgo := goToPageWith_in_range pageSize (by decide)
      { demoApp with fullOutput := List.replicate 12000 'b', currentPage := 1, totalPages := 3,
                     outputBox := box, pageInfoLabel := label }
      3 pageCount_12000.symm (by decide) (le_refl (3 : Int))
    exact ⟨_, _, hs, hgo, rfl, rfl⟩
  · intro a b _ hb
    obtain ⟨box2, label2, hs2⟩ := encryptButton_spec a
    rw [hs2, Option.some.injEq] at hb
    subst hb
    rfl
  · intro a b ha hb
    rw [hs, Option.some.injEq] at ha
    subst ha
    have hgo := goToPageWith_in_range pageSize (by decide)
      { demoApp with fullOutput := List.replicate 12000 'b', currentPage := 1, totalPages := 3,
                     outputBox := box, pageInfoLabel := label }
      2 pageCount_12000.symm (by decide) (show (2 : Int) ≤ 3 by decide)
    have hb2 : converterApp.goToPageWith pageSize
        { demoApp with fullOutput := List.replicate 12000 'b', currentPage := 1,
                       totalPages := 3, outputBox := box, pageInfoLabel := label } 2 =
        some b := hb
    rw [hgo, Option.some.injEq] at hb2
    subst hb2
    rfl

/-- C19: in every session state reached from the initial state by any sequence of events, the
slice bounds computed by `showCurrentPage` and by `showInputPage` satisfy
`0 ≤ start ≤ end ≤ len(runes)`, and both methods return without panicking. -/
theorem render_bounds_in_range (h : HashID) (ops : List Op) (app : converterApp)
    (hrun : run ops (newConverterApp h) = some app) :
    (0 ≤ (app.currentPage - 1) * pageSize ∧
      (app.currentPage - 1) * pageSize ≤
        (if app.currentPage * pageSize > app.fullOutput.length
          then (app.fullOutput.length : Int) else app.currentPage * pageSize) ∧
      (if app.currentPage * pageSize > app.fullOutput.length
          then (app.fullOutput.length : Int) else app.currentPage * pageSize) ≤
        app.fullOutput.length) ∧
    (0 ≤ (app.inputCurrentPage - 1) * pageSize ∧
      (app.inputCurrentPage - 1) * pageSize ≤
        (if app.inputCurrentPage * pageSize > app.fullInput.length
          then (app.fullInput.length : Int) else app.inputCurrentPage * pageSize) ∧
      (if app.inputCurrentPage * pageSize > app.fullInput.length
          then (app.fullInput.length : Int) else app.inputCurrentPage * pageSize) ≤
        app.fullInput.length) ∧
    (∃ a, app.showCurrentPage = some a) ∧ (∃ a, app.showInputPage = some a) := by
  have hinv := run_cursorsOK ops _ app (newConverterApp_cursorsOK h) hrun
  exact ⟨cursorOK_bounds _ _ _ hinv.1, cursorOK_bounds _ _ _ hinv.2,
    showCurrentPage_of_cursorOK app hinv.1, showInputPage_of_cursorOK app hinv.2⟩

/-- C19 after pasting, encrypting and navigating on both buffers. -/
theorem render_bounds_in_range_witness :
    ∃ app, run [Op.paste "7,8,9".toList, Op.encrypt, Op.goToPage 1, Op.goToInputPage 3,
        Op.formatFlip] (newConverterApp demoHashID) = some app ∧
      (∃ a, app.showCurrentPage = some a) ∧ (∃ a, app.showInputPage = some a) := by
  obtain ⟨app, happ⟩ := run_total [Op.paste "7,8,9".toList, Op.encrypt, Op.goToPage 1,
    Op.goToInputPage 3, Op.formatFlip]
    (newConverterApp demoHashID) (newConverterApp_cursorsOK demoHashID) (by decide)
  exact ⟨app, happ, (render_bounds_in_range demoHashID _ app happ).2.2⟩

/-- C20: for every text in which no field between separators is white space only, flipping
the format twice gives the trimmed tokens of `t` joined by the delimiter inferred from `t`
itself (newline when `t` has strictly more newlines than commas, comma otherwise), and so
flipping three times equals flipping once. -/
theorem convertFormat_flip_twice (t : List Char)
    (h : ∀ item ∈ FieldsFunc t isSep, TrimSpace item ≠ []) :
    convertFormat (convertFormat t) =
      (if Count t '\n' > Count t ',' then "\n".toList else ",".toList).intercalate
        ((FieldsFunc t isSep).map TrimSpace) ∧
    convertFormat (convertFormat (convertFormat t)) = convertFormat t :=
  convertFormat_twice t h

/-- C20 at the text ` a , b⏎c`, which normalises to `a,b,c`. -/
theorem convertFormat_flip_twice_witness :
    (∀ item ∈ FieldsFunc " a , b\nc".toList isSep, TrimSpace item ≠ []) ∧
      convertFormat (convertFormat " a , b\nc".toList) = "a,b,c".toList ∧
      convertFormat (convertFormat (convertFormat " a , b\nc".toList)) =
        convertFormat " a , b\nc".toList :=
  ⟨by decide,
    (convertFormat_flip_twice " a , b\nc".toList (by decide)).1.trans (by decide),
    (convertFormat_flip_twice " a , b\nc".toList (by decide)).2⟩

end OperationKit
